import Mathlib

/-
Verification development for the decred plugin of politeiad (gitbe backend),
shallowly embedded from politeiad/backend/gitbe/decred.go.

Embedding conventions:
- External effects (the dcrdata HTTP oracle, JSON decoding, the dcrd crypto
  library, the git lock and checkout) are modelled as explicit parameters:
  an oracle answer is an Option value, a fallible step is a Bool.
- The on-disk vote ledger (one file per proposal token, one JSON record per
  accepted vote) is modelled as an association list from token to file.
- Go machine integers are modelled as Nat with an explicit mod 2 ^ 32 where
  the source arithmetic could wrap (uint32 addition in pluginStartVote).
- A Go panic is modelled as an explicit outcome constructor: it aborts the
  whole call and carries the state at the moment of the abort.
- Go float64 commitment amounts are modelled as rationals: JSON cannot carry
  NaN or infinities, and every finite float64 is a rational, so the ordering
  behaviour of the source comparisons is preserved exactly.
- Go map iteration order over dedupVotes is unspecified; the embedding fixes
  insertion order.  All properties proved below are independent of that
  order (keys in the map are pairwise distinct).
-/

namespace Gitbe

/-- Vote as carried by decredplugin.CastVote: proposal token, ticket id,
vote bit and the client signature (hex string). -/
structure CastVote where
  token : String
  ticket : String
  voteBit : String
  signature : String
deriving DecidableEq, Repr

instance : Inhabited CastVote := ⟨⟨"", "", "", ""⟩⟩

/-- Reply entry of decredplugin.CastVoteReply.  Go zero values are empty
strings; a field is `set` when it is non-empty. -/
structure CastVoteReply where
  clientSignature : String
  signature : String
  error : String
deriving DecidableEq, Repr

instance : Inhabited CastVoteReply := ⟨⟨"", "", ""⟩⟩

/-- Hex encoding of one byte as two lowercase hex digits (digits 0-9 a-f,
as produced by hex.EncodeToString), low nibble last. -/
def hexEncodeByte (b : Nat) : String :=
  String.mk [Nat.digitChar (b / 16 % 16), Nat.digitChar (b % 16)]

/-- Model of hex.EncodeToString over a byte list. -/
def hexEncode (bs : List Nat) : String :=
  String.join (bs.map hexEncodeByte)

/-- Model of identity.FullIdentity: only the signing capability is used by
pluginCastVotes.  SignMessage is the external ed25519 signer, modelled as an
opaque function from the signed message to the signature bytes. -/
structure FullIdentity where
  signMessage : String → List Nat

/-- Counter signature produced for an accepted vote:
hex.EncodeToString(fi.SignMessage([]byte(v.Signature))). -/
def countersig (fi : FullIdentity) (v : CastVote) : String :=
  hexEncode (fi.signMessage v.signature)

/-- Dedup key of a vote: the Go code uses the string concatenation
v.Token + v.Ticket as the map key. -/
def vkey (v : CastVote) : String :=
  v.token ++ v.ticket

/-- Entry of the dedupVotes map: the vote together with its index in the
input batch.  The map key is derived from the vote. -/
structure DedupEntry where
  vote : CastVote
  index : Nat
deriving DecidableEq, Repr

/-- Map key of a dedupVotes entry. -/
def DedupEntry.key (e : DedupEntry) : String :=
  vkey e.vote

/-- Membership test of a key in the dedupVotes map. -/
def hasKey (d : List DedupEntry) (key : String) : Bool :=
  d.any fun e => e.key == key

/-- Error message for an intra-batch duplicate vote. -/
def dupErrMsg (v : CastVote) : String :=
  "duplicate vote token " ++ v.token ++ " ticket " ++ v.ticket

/-- Reply produced for a vote rejected as an intra-batch duplicate: only the
error field is written (the code continues before echoing the client
signature). -/
def dupReply (v : CastVote) : CastVoteReply :=
  ⟨"", "", dupErrMsg v⟩

/-- Reply produced for a vote that passed signature verification: the echoed
client signature and the counter signature, no error. -/
def acceptedReply (fi : FullIdentity) (v : CastVote) : CastVoteReply :=
  ⟨v.signature, countersig fi v, ""⟩

/-- First loop of pluginCastVotes (decred.go lines 363-390): per vote,
check the intra-batch dedup map, echo the client signature, run signature
validation, and on success counter-sign and insert into dedupVotes.
validate models g.validateVote: none on success, some message on failure.
The Nat argument is the running batch index k. -/
def verifyLoop (fi : FullIdentity) (validate : CastVote → Option String) :
    List CastVote → Nat → List DedupEntry → List CastVoteReply × List DedupEntry
  | [], _, dedup => ([], dedup)
  | v :: rest, k, dedup =>
    if hasKey dedup (vkey v) then
      let r := verifyLoop fi validate rest (k + 1) dedup
      (dupReply v :: r.1, r.2)
    else
      match validate v with
      | some e =>
        let r := verifyLoop fi validate rest (k + 1) dedup
        (⟨v.signature, "", e⟩ :: r.1, r.2)
      | none =>
        let r := verifyLoop fi validate rest (k + 1) (dedup ++ [⟨v, k⟩])
        (acceptedReply fi v :: r.1, r.2)

/-- Ledger file of one proposal token: the JSON records that decode
successfully, plus a corruption flag meaning that the decoder hits a
non-EOF error after those records (decred.go lines 443-459). -/
structure LedgerFile where
  entries : List CastVote
  corrupt : Bool
deriving DecidableEq, Repr

/-- The on-disk ledger tree: token to ledger file.  A missing token denotes
the empty file that os.OpenFile with O_CREATE would create. -/
def Store := List (String × LedgerFile)
deriving DecidableEq

/-- Read the ledger file of a token (empty non-corrupt file if absent). -/
def getFile (s : Store) (t : String) : LedgerFile :=
  match List.find? (fun p => p.1 == t) s with
  | some p => p.2
  | none => ⟨[], false⟩

/-- Write the ledger file of a token. -/
def setFile : Store → String → LedgerFile → Store
  | [], t, f => [(t, f)]
  | p :: rest, t, f => if p.1 = t then (t, f) :: rest else p :: setFile rest t f

/-- Dedup keys of the entries of the ledger file of a token. -/
def fileKeys (s : Store) (t : String) : List String :=
  ((getFile s t).entries).map vkey

/-- Append one vote at end of file of its token (decred.go lines 485-498:
seek to end, JSON-encode one record). -/
def appendVote (s : Store) (v : CastVote) : Store :=
  let f := getFile s v.token
  setFile s v.token ⟨f.entries ++ [v], f.corrupt⟩

/-- Key recreation over the decoded records (decred.go lines 461-470): build
the content set, with the sanity check that panics ("yy") when a key repeats
inside one file.  Returns none on that panic. -/
def buildContent : List CastVote → List String → Option (List String)
  | [], acc => some acc
  | vv :: rest, acc =>
    if vkey vv ∈ acc then none
    else buildContent rest (acc ++ [vkey vv])

/-- Outcome of lazily opening a ledger file in the dup-check loop. -/
inductive OpenResult where
  | opened (content : List String) (opened : List (String × List String))
  | panic (msg : String)

/-- Lazy open of the ledger file of a token (decred.go lines 426-473): a
cache hit returns the content recorded at first open; a miss replays the
file.  A decode error panics ("zzz"); a repeated key inside the file panics
("yy").  The Go code suffixes the decoder error text to "zzz "; that text
is external, so the model keeps the fixed prefix. -/
def openFor (s : Store) (opened : List (String × List String)) (t : String) :
    OpenResult :=
  match List.find? (fun p => p.1 == t) opened with
  | some p => .opened p.2 opened
  | none =>
    let f := getFile s t
    if f.corrupt then .panic "zzz"
    else
      match buildContent f.entries [] with
      | none => .panic "yy"
      | some content => .opened content (opened ++ [(t, content)])

/-- Reply error text for a ledger-level duplicate. -/
def alreadyVotedMsg : String := "ticket already voted on proposal"

/-- Set the error of reply i to the already-voted message (decred.go lines
477-479).  List.set is the identity beyond the list length, matching the
in-bounds Go index. -/
def setError (cbr : List CastVoteReply) (i : Nat) : List CastVoteReply :=
  cbr.set i { cbr.getD i default with error := alreadyVotedMsg }

/-- Outcome of the dup-check and append loop: normal completion with the
updated replies and store, or a Go panic carrying the state at the abort. -/
inductive LoopOutcome where
  | ok (cbr : List CastVoteReply) (store : Store)
  | panicked (msg : String) (store : Store)
deriving DecidableEq

/-- Second loop of pluginCastVotes (decred.go lines 420-499): for each
dedupVotes entry, lazily open and replay the ledger file of its token,
reject the vote when its key is already present, otherwise append it.  The
content cache of an opened file is not refreshed after an append, exactly
as in the source. -/
def appendLoop : List DedupEntry → List CastVoteReply → Store →
    List (String × List String) → LoopOutcome
  | [], cbr, store, _ => .ok cbr store
  | e :: rest, cbr, store, opened =>
    match openFor store opened e.vote.token with
    | .panic msg => .panicked msg store
    | .opened content opened' =>
      if e.key ∈ content then
        appendLoop rest (setError cbr e.index) store opened'
      else
        appendLoop rest cbr (appendVote store e.vote) opened'

/-- Key of the full-identity plugin setting. -/
def decredPluginIdentity : String := "fullidentity"

/-- Look up a key in the plugin settings map. -/
def lookupSetting (settings : List (String × String)) (k : String) :
    Option String :=
  (List.find? (fun p => p.1 == k) settings).map (fun p => p.2)

/-- Result of a pluginCastVotes call: the encoded replies with the final
ledger state, a returned error (the store is the state at return), or a
process abort by panic. -/
inductive CastVotesResult where
  | ok (replies : List CastVoteReply) (store : Store)
  | err (msg : String) (store : Store)
  | panicked (msg : String) (store : Store)
deriving DecidableEq

/-- Ledger state carried by a pluginCastVotes result. -/
def resultStore : CastVotesResult → Store
  | .ok _ s => s
  | .err _ s => s
  | .panicked _ s => s

/-- Replies carried by a pluginCastVotes result (empty unless the call
returned normally). -/
def repliesOf : CastVotesResult → List CastVoteReply
  | .ok r _ => r
  | .err _ _ => []
  | .panicked _ _ => []

/-- Model of pluginCastVotes (decred.go lines 341-536).
Parameters model the externals:
- unmarshal: identity.UnmarshalFullIdentity over the setting payload;
- validate: g.validateVote (none on success);
- lockOk, shutdown, checkoutOk, pullOk: the lock acquisition, the shutdown
  flag, git checkout master and git pull;
- decoded: the decredplugin.DecodeCastVotes result.
Error message texts of external errors are abstracted to fixed tags.  The
final EncodeCastVoteReplies step is JSON encoding of the reply list and is
modelled by returning the list itself. -/
def pluginCastVotes (settings : List (String × String))
    (unmarshal : String → Option FullIdentity)
    (validate : CastVote → Option String)
    (lockOk shutdown checkoutOk pullOk : Bool)
    (decoded : Option (List CastVote)) (store : Store) : CastVotesResult :=
  match decoded with
  | none => .err "DecodeVote" store
  | some votes =>
    match lookupSetting settings decredPluginIdentity with
    | none => .err "full identity not set" store
    | some fiJSON =>
      match unmarshal fiJSON with
      | none => .err "UnmarshalFullIdentity" store
      | some fi =>
        let vr := verifyLoop fi validate votes 0 []
        if !lockOk then
          .err "pluginCastVotes: lock error try again later" store
        else if shutdown then .err "backend shutdown" store
        else if !checkoutOk then .err "gitCheckout" store
        else if !pullOk then .err "gitPull" store
        else
          match appendLoop vr.2 vr.1 store [] with
          | .ok cbr' store' => .ok cbr' store'
          | .panicked msg store' => .panicked msg store'

/-- Stores reachable from the empty ledger tree by any sequence of
pluginCastVotes calls with arbitrary settings, oracles and batches. -/
inductive Reachable : Store → Prop where
  | base : Reachable ([] : Store)
  | step (settings : List (String × String))
      (unmarshal : String → Option FullIdentity)
      (validate : CastVote → Option String)
      (lockOk shutdown checkoutOk pullOk : Bool)
      (decoded : Option (List CastVote)) {s : Store} :
      Reachable s →
      Reachable (resultStore (pluginCastVotes settings unmarshal validate
        lockOk shutdown checkoutOk pullOk decoded s))

/-! Signature verifier: g.verifyMessage (decred.go lines 76-129). -/

/-- Result of dcrutil.DecodeAddress as far as verifyMessage inspects it:
either a pay-to-pubkey-hash address or an address of another kind. -/
inductive DecodedAddress where
  | pubKeyHash (enc : String)
  | other (enc : String)
deriving DecidableEq, Repr

/-- External cryptographic and encoding primitives used by verifyMessage,
modelled as opaque functions.  The public key is opaque (a Nat tag).
newAddressSecpPubKey composes dcrutil.NewAddressSecpPubKey with
EncodeAddress and returns the encoded address, or none on failure. -/
structure ChainCrypto where
  decodeAddress : String → Option DecodedAddress
  b64Decode : String → Option (List Nat)
  hashMessage : String → List Nat
  recoverCompact : List Nat → List Nat → Option (Nat × Bool)
  serializeCompressed : Nat → List Nat
  serializeUncompressed : Nat → List Nat
  newAddressSecpPubKey : List Nat → Option String

/-- Model of g.verifyMessage: decode address, require P2PKH, decode base64
signature, hash the canonical message, recover the key compactly, rebuild
the address, compare.  Recovery or rebuild failure returns (false, nil). -/
def verifyMessage (c : ChainCrypto) (address message signature : String) :
    Except String Bool :=
  match c.decodeAddress address with
  | none => .error "Could not decode address"
  | some (.other _) => .error "Address is not a pay-to-pubkey-hash address"
  | some (.pubKeyHash _) =>
    match c.b64Decode signature with
    | none => .error "Malformed base64 encoding"
    | some sig =>
      let expectedMessageHash := c.hashMessage message
      match c.recoverCompact sig expectedMessageHash with
      | none => .ok false
      | some (pk, wasCompressed) =>
        let serializedPK :=
          if wasCompressed then c.serializeCompressed pk
          else c.serializeUncompressed pk
        match c.newAddressSecpPubKey serializedPK with
        | none => .ok false
        | some a => .ok (a == address)

/-! Vote session manager: g.pluginStartVote (decred.go lines 238-308). -/

/-- Block data returned by the dcrdata oracle, as far as the plugin uses
it: height and hash. -/
structure BlockDataBasic where
  height : Nat
  hash : String
deriving DecidableEq, Repr

/-- Vote request payload as far as pluginStartVote uses it: the token. -/
structure Vote where
  token : String
deriving DecidableEq, Repr

/-- decredplugin.StartVoteReply.  Heights are decimal strings produced by
strconv.FormatUint, modelled with toString on Nat. -/
structure StartVoteReply where
  startBlockHeight : String
  startBlockHash : String
  endHeight : String
  eligibleTickets : List String
deriving DecidableEq, Repr

/-- Metadata stream payloads written by UpdateVettedMetadata: the original
vote-bits request payload and the encoded session snapshot, with distinct
stream identifiers. -/
inductive MetadataPayload where
  | voteBits (payload : String)
  | voteSnapshot (svr : StartVoteReply)
deriving DecidableEq, Repr

/-- Successful outcome of pluginStartVote: the session reply together with
the metadata streams handed to UpdateVettedMetadata. -/
structure StartVoteOutcome where
  reply : StartVoteReply
  metadata : List MetadataPayload
deriving DecidableEq, Repr

/-- Model of pluginStartVote.  Parameters model the externals:
- bestBlockO: the bestBlock dcrdata query;
- blockO: the block-by-height dcrdata query;
- snapshotO: the ticket pool snapshot query by block hash;
- tokenBytes: util.ConvertStringToken;
- updateOk: the g.UpdateVettedMetadata call;
- decoded: the decredplugin.DecodeVote result.
uint32 addition of the fixed 2016-block duration is taken mod 2 ^ 32. -/
def pluginStartVote (maturity : Nat)
    (bestBlockO : Option BlockDataBasic)
    (blockO : Nat → Option BlockDataBasic)
    (snapshotO : String → Option (List String))
    (tokenBytes : String → Option (List Nat))
    (updateOk : Bool)
    (decoded : Option Vote) (payload : String) :
    Except String StartVoteOutcome :=
  match decoded with
  | none => .error "DecodeVote"
  | some vote =>
    match tokenBytes vote.token with
    | none => .error "ConvertStringToken"
    | some _ =>
      match bestBlockO with
      | none => .error "bestBlock"
      | some bb =>
        if bb.height < maturity then .error "invalid height"
        else
          match blockO (bb.height - maturity) with
          | none => .error "bestBlock"
          | some snapshotBlock =>
            match snapshotO snapshotBlock.hash with
            | none => .error "snapshot"
            | some snap =>
              let duration : Nat := 2016
              let svr : StartVoteReply :=
                { startBlockHeight := toString snapshotBlock.height
                  startBlockHash := snapshotBlock.hash
                  endHeight := toString ((snapshotBlock.height + duration) % 2 ^ 32)
                  eligibleTickets := snap }
              if updateOk then
                .ok { reply := svr
                      metadata := [.voteBits payload, .voteSnapshot svr] }
              else .error "UpdateVettedMetadata"

/-! Commitment address selection: largestCommitmentAddress
(decred.go lines 187-228), over the decoded TrimmedTx. -/

/-- Decoded script data of one output, as far as the plugin uses it. -/
structure ScriptPubKeyDecoded where
  commitAmt : Option ℚ
  addresses : List String
deriving DecidableEq, Repr

/-- One transaction output. -/
structure Vout where
  scriptPubKeyDecoded : ScriptPubKeyDecoded
deriving DecidableEq, Repr

/-- Decoded transaction, as far as the plugin uses it. -/
structure TrimmedTx where
  txID : String
  vout : List Vout
deriving DecidableEq, Repr

/-- One step of the largestCommitmentAddress loop (decred.go lines
207-220): skip a nil commitment, on a strictly larger amount skip an output
without addresses, otherwise take its first address and the amount. -/
def commitStep (acc : String × ℚ) (v : Vout) : String × ℚ :=
  match v.scriptPubKeyDecoded.commitAmt with
  | none => acc
  | some amt =>
    if acc.2 < amt then
      if v.scriptPubKeyDecoded.addresses = [] then acc
      else (v.scriptPubKeyDecoded.addresses.headD "", amt)
    else acc

/-- Model of largestCommitmentAddress over a decoded transaction: run the
loop from the zero accumulator, fail when no address was selected or the
selected amount is zero. -/
def largestCommitmentAddress (tx : TrimmedTx) : Except String String :=
  let best := tx.vout.foldl commitStep ("", 0)
  if best.1 = "" ∨ best.2 = 0 then
    .error ("no best commitment address found: " ++ tx.txID)
  else .ok best.1

/-! Specification-side definitions (from the words of the claims, for the
claims that compare the source behaviour against a described selection
rule). -/

/-- Commitment amount of an output as a plain number, zero when nil, as the
claim C9 wording treats outputs. -/
def claimAmt (v : Vout) : ℚ :=
  v.scriptPubKeyDecoded.commitAmt.getD 0

/-- Earliest output whose commitment amount is strictly greater than the
amount of every earlier output, read literally from claim C9.  The first
argument accumulates the earlier outputs. -/
def firstDominant : List Vout → List Vout → Option Vout
  | _, [] => none
  | earlier, v :: rest =>
    if earlier.all fun u => decide (claimAmt u < claimAmt v) then some v
    else firstDominant (earlier ++ [v]) rest

/-- Address that claim C9, read literally, says largestCommitmentAddress
returns: the first address of the earliest output dominating all earlier
outputs. -/
def claimedCommitmentAddress (tx : TrimmedTx) : Option String :=
  (firstDominant [] tx.vout).bind fun v => v.scriptPubKeyDecoded.addresses.head?

/-- Maximum commitment amount over all outputs (zero floor), for the
reading of claim C9 in which ties at the maximum resolve to the earliest
output. -/
def maxClaimAmt (tx : TrimmedTx) : ℚ :=
  (tx.vout.map claimAmt).foldl max 0

/-- Address that the maximum reading of claim C9 says is returned: the
first address of the earliest output attaining the maximum commitment
amount. -/
def claimedMaxAddress (tx : TrimmedTx) : Option String :=
  (tx.vout.find? fun v => decide (claimAmt v = maxClaimAmt tx)).bind
    fun v => v.scriptPubKeyDecoded.addresses.head?

/-- Outputs considered by the source loop: non-nil commitment amount and a
non-empty address list, abstracted to the pair of the amount and the first
address.  Outputs outside this list never change the loop accumulator. -/
def goodOuts (l : List Vout) : List (ℚ × String) :=
  l.filterMap fun v =>
    match v.scriptPubKeyDecoded.commitAmt with
    | none => none
    | some amt =>
      if v.scriptPubKeyDecoded.addresses = [] then none
      else some (amt, v.scriptPubKeyDecoded.addresses.headD "")

/-- Loop step restricted to considered outputs. -/
def pairStep (acc : String × ℚ) (x : ℚ × String) : String × ℚ :=
  if acc.2 < x.1 then (x.2, x.1) else acc

/-- Maximum considered commitment amount of a transaction (zero floor). -/
def bestAmount (tx : TrimmedTx) : ℚ :=
  ((goodOuts tx.vout).map Prod.fst).foldl max 0

/-- First address of the earliest considered output attaining the maximum
considered amount (empty string when none attains it). -/
def selectedAddr (tx : TrimmedTx) : String :=
  match (goodOuts tx.vout).find? fun x => decide (x.1 = bestAmount tx) with
  | some x => x.2
  | none => ""

/-! Proof-support definitions. -/

/-- Dedup keys of a batch, in batch order. -/
def keysOf (l : List CastVote) : List String :=
  l.map vkey

/-- Keys of a dedupVotes map, in insertion order. -/
def dedupKeys (d : List DedupEntry) : List String :=
  d.map DedupEntry.key

/-- The dedupVotes map built from a batch in which every vote is accepted:
each vote with its batch index, starting at k. -/
def mkEntries : List CastVote → Nat → List DedupEntry
  | [], _ => []
  | v :: rest, k => ⟨v, k⟩ :: mkEntries rest (k + 1)

/-- Append the vote of every entry to the ledger file of its token, in
order. -/
def appendAll : Store → List DedupEntry → Store
  | s, [] => s
  | s, e :: rest => appendAll (appendVote s e.vote) rest

/-- Set the already-voted error at each of the given reply indices. -/
def setErrors (cbr : List CastVoteReply) (idxs : List Nat) :
    List CastVoteReply :=
  idxs.foldl setError cbr

/-- Ledger state carried by an append-loop outcome. -/
def loopStore : LoopOutcome → Store
  | .ok _ s => s
  | .panicked _ s => s

end Gitbe

namespace Gitbe

/-! Lemmas about the verify loop. -/

theorem hasKey_eq_true_iff (d : List DedupEntry) (key : String) :
    hasKey d key = true ↔ key ∈ dedupKeys d := by
  simp only [hasKey, dedupKeys, List.any_eq_true, List.mem_map, beq_iff_eq]

theorem hasKey_eq_false_iff (d : List DedupEntry) (key : String) :
    hasKey d key = false ↔ key ∉ dedupKeys d := by
  rw [← hasKey_eq_true_iff]
  simp

theorem verifyLoop_length (fi : FullIdentity) (validate : CastVote → Option String) :
    ∀ (votes : List CastVote) (k : Nat) (d : List DedupEntry),
      (verifyLoop fi validate votes k d).1.length = votes.length := by
  intro votes
  induction votes with
  | nil => intro k d; simp [verifyLoop]
  | cons v rest ih =>
    intro k d
    simp only [verifyLoop]
    split
    · simp [ih]
    · split <;> simp [ih]

theorem verifyLoop_dedup_nodup (fi : FullIdentity) (validate : CastVote → Option String) :
    ∀ (votes : List CastVote) (k : Nat) (d : List DedupEntry),
      (dedupKeys d).Nodup → (dedupKeys (verifyLoop fi validate votes k d).2).Nodup := by
  intro votes
  induction votes with
  | nil => intro k d h; simpa [verifyLoop] using h
  | cons v rest ih =>
    intro k d h
    simp only [verifyLoop]
    split
    · exact ih (k + 1) d h
    · rename_i hnk
      split
      · exact ih (k + 1) d h
      · rw [hasKey_eq_true_iff] at hnk
        refine ih (k + 1) (d ++ [⟨v, k⟩]) ?_
        simp only [dedupKeys, List.map_append, List.map_cons, List.map_nil]
        rw [List.nodup_append]
        refine ⟨h, List.nodup_singleton _, ?_⟩
        intro a ha hb
        simp only [List.mem_singleton] at hb
        subst hb
        exact hnk ha

end Gitbe

namespace Gitbe

theorem verifyLoop_append (fi : FullIdentity) (validate : CastVote → Option String) :
    ∀ (l₁ l₂ : List CastVote) (k : Nat) (d : List DedupEntry),
      verifyLoop fi validate (l₁ ++ l₂) k d =
        ((verifyLoop fi validate l₁ k d).1 ++
            (verifyLoop fi validate l₂ (k + l₁.length)
              (verifyLoop fi validate l₁ k d).2).1,
          (verifyLoop fi validate l₂ (k + l₁.length)
            (verifyLoop fi validate l₁ k d).2).2) := by
  intro l₁
  induction l₁ with
  | nil => intro l₂ k d; simp [verifyLoop]
  | cons v rest ih =>
    intro l₂ k d
    have harith : k + 1 + rest.length = k + (rest.length + 1) := by omega
    simp only [List.cons_append, verifyLoop, List.append_eq]
    split
    · rw [ih l₂ (k + 1) d, List.length_cons, harith]
      simp
    · split
      · rw [ih l₂ (k + 1) d, List.length_cons, harith]
        simp
      · rw [ih l₂ (k + 1) (d ++ [DedupEntry.mk v k]), List.length_cons, harith]
        simp

theorem verifyLoop_dedup_mem (fi : FullIdentity) (validate : CastVote → Option String) :
    ∀ (votes : List CastVote) (k : Nat) (d : List DedupEntry) (e : DedupEntry),
      e ∈ (verifyLoop fi validate votes k d).2 →
      e ∈ d ∨ (k ≤ e.index ∧ e.index < k + votes.length) := by
  intro votes
  induction votes with
  | nil => intro k d e he; exact Or.inl (by simpa [verifyLoop] using he)
  | cons v rest ih =>
    intro k d e he
    simp only [verifyLoop] at he
    have step : e ∈ d ∨ (k + 1 ≤ e.index ∧ e.index < k + 1 + rest.length) →
        e ∈ d ∨ (k ≤ e.index ∧ e.index < k + (v :: rest).length) := by
      intro h
      rcases h with h | h
      · exact Or.inl h
      · right; simp only [List.length_cons]; omega
    split at he
    · exact step (ih (k + 1) d e he)
    · split at he
      · exact step (ih (k + 1) d e he)
      · rcases ih (k + 1) (d ++ [⟨v, k⟩]) e he with h | h
        · rcases List.mem_append.mp h with h | h
          · exact Or.inl h
          · simp only [List.mem_singleton] at h
            subst h
            right; simp only [List.length_cons]; omega
        · right; simp only [List.length_cons]; omega

theorem mkEntries_keys : ∀ (votes : List CastVote) (k : Nat),
    dedupKeys (mkEntries votes k) = keysOf votes := by
  intro votes
  induction votes with
  | nil => intro k; simp [mkEntries, dedupKeys, keysOf]
  | cons v rest ih =>
    intro k
    simp only [mkEntries, dedupKeys, keysOf, List.map_cons] at *
    rw [ih (k + 1)]
    rfl

theorem mkEntries_mem : ∀ (votes : List CastVote) (k : Nat) (e : DedupEntry),
    e ∈ mkEntries votes k → e.vote ∈ votes := by
  intro votes
  induction votes with
  | nil => intro k e he; simp [mkEntries] at he
  | cons v rest ih =>
    intro k e he
    simp only [mkEntries, List.mem_cons] at he
    rcases he with h | h
    · subst h; exact List.mem_cons_self _ _
    · exact List.mem_cons_of_mem _ (ih (k + 1) e h)

theorem mkEntries_indices : ∀ (votes : List CastVote) (k : Nat),
    (mkEntries votes k).map DedupEntry.index = List.range' k votes.length := by
  intro votes
  induction votes with
  | nil => intro k; simp [mkEntries]
  | cons v rest ih =>
    intro k
    simp only [mkEntries, List.map_cons, List.length_cons, List.range'_succ]
    rw [ih (k + 1)]

theorem verifyLoop_all_valid (fi : FullIdentity) (validate : CastVote → Option String) :
    ∀ (votes : List CastVote) (k : Nat) (d : List DedupEntry),
      (∀ v ∈ votes, validate v = none) →
      (∀ v ∈ votes, vkey v ∉ dedupKeys d) →
      (keysOf votes).Nodup →
      verifyLoop fi validate votes k d =
        (votes.map (acceptedReply fi), d ++ mkEntries votes k) := by
  intro votes
  induction votes with
  | nil => intro k d _ _ _; simp [verifyLoop, mkEntries]
  | cons v rest ih =>
    intro k d hval hmiss hnd
    have hk : hasKey d (vkey v) = false := by
      rw [hasKey_eq_false_iff]
      exact hmiss v (List.mem_cons_self _ _)
    simp only [verifyLoop, hk, Bool.false_eq_true, if_false,
      hval v (List.mem_cons_self _ _)]
    rw [ih (k + 1) (d ++ [DedupEntry.mk v k])]
    · simp [mkEntries, List.append_assoc]
    · intro v' hv'; exact hval v' (List.mem_cons_of_mem _ hv')
    · intro v' hv'
      simp only [dedupKeys, List.map_append, List.map_cons, List.map_nil,
        List.mem_append, List.mem_singleton]
      rintro (h | h)
      · exact hmiss v' (List.mem_cons_of_mem _ hv') h
      · simp only [keysOf, List.map_cons, List.nodup_cons] at hnd
        have hvv : vkey v' = vkey v := h
        exact hnd.1 (hvv ▸ List.mem_map_of_mem vkey hv')
    · simp only [keysOf, List.map_cons, List.nodup_cons] at hnd
      exact hnd.2

theorem verifyLoop_reply_shape (fi : FullIdentity) (validate : CastVote → Option String) :
    ∀ (votes : List CastVote) (k : Nat) (d : List DedupEntry) (j : Nat),
      j < votes.length →
      ((verifyLoop fi validate votes k d).1.getD j default =
          dupReply (votes.getD j default)) ∨
      (∃ e, validate (votes.getD j default) = some e ∧
        (verifyLoop fi validate votes k d).1.getD j default =
          ⟨(votes.getD j default).signature, "", e⟩) ∨
      (validate (votes.getD j default) = none ∧
        (verifyLoop fi validate votes k d).1.getD j default =
          acceptedReply fi (votes.getD j default)) := by
  intro votes
  induction votes with
  | nil => intro k d j hj; simp at hj
  | cons v rest ih =>
    intro k d j hj
    match j with
    | 0 =>
      simp only [verifyLoop, List.getD_cons_zero]
      split
      · left; rfl
      · rcases hv : validate v with _ | e
        · simp only [hv]
          exact Or.inr (Or.inr ⟨by simp, by simp⟩)
        · simp only [hv]
          exact Or.inr (Or.inl ⟨e, by simp, by simp⟩)
    | j + 1 =>
      have hj' : j < rest.length := by simpa using Nat.lt_of_succ_lt_succ hj
      simp only [verifyLoop, List.getD_cons_succ]
      split
      · exact ih (k + 1) d j hj'
      · split
        · exact ih (k + 1) d j hj'
        · exact ih (k + 1) (d ++ [⟨v, k⟩]) j hj'

end Gitbe

namespace Gitbe

/-! Lemmas about the ledger store. -/

theorem getFile_setFile_self : ∀ (s : Store) (t : String) (f : LedgerFile),
    getFile (setFile s t f) t = f := by
  intro s
  induction s with
  | nil => intro t f; simp [getFile, setFile]
  | cons p rest ih =>
    intro t f
    simp only [setFile]
    by_cases h : p.1 = t
    · simp [getFile, h]
    · simp only [if_neg h, getFile, List.find?]
      rw [show (p.1 == t) = false by simpa using h]
      exact ih t f

theorem getFile_setFile_ne : ∀ (s : Store) (t t' : String) (f : LedgerFile),
    t ≠ t' → getFile (setFile s t f) t' = getFile s t' := by
  intro s
  induction s with
  | nil =>
    intro t t' f h
    simp only [setFile, getFile, List.find?]
    rw [show (t == t') = false by simpa using h]
  | cons p rest ih =>
    intro t t' f h
    simp only [setFile]
    by_cases hp : p.1 = t
    · subst hp
      simp only [if_pos rfl, getFile, List.find?]
      rw [show (p.1 == t') = false by simpa using h]
    · simp only [if_neg hp, getFile, List.find?]
      cases hpt : (p.1 == t') with
      | true => rfl
      | false => exact ih t t' f h

theorem getFile_appendVote_self (s : Store) (v : CastVote) :
    getFile (appendVote s v) v.token =
      ⟨(getFile s v.token).entries ++ [v], (getFile s v.token).corrupt⟩ :=
  getFile_setFile_self s v.token _

theorem getFile_appendVote_ne (s : Store) (v : CastVote) (t : String)
    (h : v.token ≠ t) : getFile (appendVote s v) t = getFile s t :=
  getFile_setFile_ne s v.token t _ h

theorem fileKeys_appendVote_self (s : Store) (v : CastVote) :
    fileKeys (appendVote s v) v.token = fileKeys s v.token ++ [vkey v] := by
  simp [fileKeys, getFile_appendVote_self]

theorem fileKeys_appendVote_ne (s : Store) (v : CastVote) (t : String)
    (h : v.token ≠ t) : fileKeys (appendVote s v) t = fileKeys s t := by
  simp [fileKeys, getFile_appendVote_ne s v t h]

theorem corrupt_appendVote (s : Store) (v : CastVote) (t : String) :
    (getFile (appendVote s v) t).corrupt = (getFile s t).corrupt := by
  by_cases h : v.token = t
  · subst h; rw [getFile_appendVote_self]
  · rw [getFile_appendVote_ne s v t h]

theorem buildContent_of_nodup : ∀ (l : List CastVote) (acc : List String),
    (acc ++ l.map vkey).Nodup → buildContent l acc = some (acc ++ l.map vkey) := by
  intro l
  induction l with
  | nil => intro acc h; simp [buildContent]
  | cons vv rest ih =>
    intro acc h
    have hnotin : vkey vv ∉ acc := by
      intro hin
      rcases List.nodup_append.mp h with ⟨_, _, hdisj⟩
      exact hdisj hin (by simp)
    simp only [buildContent, if_neg hnotin]
    rw [ih (acc ++ [vkey vv]) (by simpa [List.append_assoc] using h)]
    simp

theorem buildContent_eq_some : ∀ (l : List CastVote) (acc c : List String),
    buildContent l acc = some c → c = acc ++ l.map vkey := by
  intro l
  induction l with
  | nil => intro acc c h; simp only [buildContent, Option.some.injEq] at h; simp [← h]
  | cons vv rest ih =>
    intro acc c h
    simp only [buildContent] at h
    split at h
    · exact absurd h (by simp)
    · rw [ih (acc ++ [vkey vv]) c h]
      simp

theorem appendAll_entries : ∀ (entries : List DedupEntry) (s : Store) (t : String),
    (getFile (appendAll s entries) t).entries =
      (getFile s t).entries ++
        (entries.filter fun e => e.vote.token == t).map DedupEntry.vote := by
  intro entries
  induction entries with
  | nil => intro s t; simp [appendAll]
  | cons e rest ih =>
    intro s t
    simp only [appendAll, List.filter]
    cases het : (e.vote.token == t) with
    | true =>
      have ht : e.vote.token = t := by simpa using het
      rw [ih (appendVote s e.vote) t]
      subst ht
      rw [getFile_appendVote_self]
      simp
    | false =>
      have ht : e.vote.token ≠ t := by simpa using het
      rw [ih (appendVote s e.vote) t, getFile_appendVote_ne s e.vote t ht]

theorem appendAll_corrupt : ∀ (entries : List DedupEntry) (s : Store) (t : String),
    (getFile (appendAll s entries) t).corrupt = (getFile s t).corrupt := by
  intro entries
  induction entries with
  | nil => intro s t; simp [appendAll]
  | cons e rest ih =>
    intro s t
    simp only [appendAll]
    rw [ih (appendVote s e.vote) t, corrupt_appendVote]

theorem appendAll_fileKeys (entries : List DedupEntry) (s : Store) (t : String) :
    fileKeys (appendAll s entries) t =
      fileKeys s t ++ dedupKeys (entries.filter fun e => e.vote.token == t) := by
  simp only [fileKeys, appendAll_entries, List.map_append, dedupKeys, List.map_map]
  rfl

end Gitbe

namespace Gitbe

/-! Lemmas about reply updates. -/

theorem setError_length (cbr : List CastVoteReply) (i : Nat) :
    (setError cbr i).length = cbr.length := by
  simp [setError]

theorem setErrors_length : ∀ (idxs : List Nat) (cbr : List CastVoteReply),
    (setErrors cbr idxs).length = cbr.length := by
  intro idxs
  induction idxs with
  | nil => intro cbr; simp [setErrors]
  | cons i rest ih =>
    intro cbr
    simp only [setErrors, List.foldl_cons]
    rw [show List.foldl setError (setError cbr i) rest = setErrors (setError cbr i) rest from rfl,
      ih (setError cbr i), setError_length]

theorem setError_getD_ne (cbr : List CastVoteReply) (i j : Nat) (h : j ≠ i) :
    (setError cbr i).getD j default = cbr.getD j default := by
  simp [setError, List.getD, List.getElem?_set_ne (Ne.symm h)]

theorem setError_getD_self (cbr : List CastVoteReply) (i : Nat) (h : i < cbr.length) :
    (setError cbr i).getD i default =
      { cbr.getD i default with error := alreadyVotedMsg } := by
  simp [setError, List.getD, List.getElem?_set_eq_of_lt _ h, List.getElem?_eq_getElem h]

theorem setError_getD_cases (cbr : List CastVoteReply) (i j : Nat) :
    (setError cbr i).getD j default = cbr.getD j default ∨
      (setError cbr i).getD j default =
        { cbr.getD j default with error := alreadyVotedMsg } := by
  by_cases hji : j = i
  · subst hji
    by_cases hl : j < cbr.length
    · exact Or.inr (setError_getD_self cbr j hl)
    · left
      simp only [setError]
      rw [List.set_eq_of_length_le (by omega)]
  · exact Or.inl (setError_getD_ne cbr i j hji)

theorem setErrors_getD_notmem : ∀ (idxs : List Nat) (cbr : List CastVoteReply) (j : Nat),
    j ∉ idxs → (setErrors cbr idxs).getD j default = cbr.getD j default := by
  intro idxs
  induction idxs with
  | nil => intro cbr j _; simp [setErrors]
  | cons i rest ih =>
    intro cbr j hj
    simp only [List.mem_cons, not_or] at hj
    simp only [setErrors, List.foldl_cons]
    rw [show List.foldl setError (setError cbr i) rest = setErrors (setError cbr i) rest from rfl,
      ih (setError cbr i) j hj.2, setError_getD_ne cbr i j hj.1]

theorem setErrors_getD_mem : ∀ (idxs : List Nat) (cbr : List CastVoteReply) (j : Nat),
    j ∈ idxs → j < cbr.length →
    ((setErrors cbr idxs).getD j default).error = alreadyVotedMsg := by
  intro idxs
  induction idxs with
  | nil => intro cbr j hj _; simp at hj
  | cons i rest ih =>
    intro cbr j hj hl
    simp only [setErrors, List.foldl_cons]
    rw [show List.foldl setError (setError cbr i) rest = setErrors (setError cbr i) rest from rfl]
    by_cases hr : j ∈ rest
    · exact ih (setError cbr i) j hr (by rwa [setError_length])
    · have hji : j = i := by
        rcases List.mem_cons.mp hj with h | h
        · exact h
        · exact absurd h hr
      subst hji
      rw [setErrors_getD_notmem rest (setError cbr j) j hr,
        setError_getD_self cbr j hl]

end Gitbe

namespace Gitbe

/-! Lemmas about the dup-check and append loop. -/

theorem appendStep_conds (e : DedupEntry) (rest : List DedupEntry) (store : Store)
    (hnd : (dedupKeys (e :: rest)).Nodup)
    (h2 : ∀ e' ∈ e :: rest, e'.key ∉ fileKeys store e'.vote.token)
    (h4 : ∀ e' ∈ e :: rest, (fileKeys store e'.vote.token).Nodup) :
    (∀ e' ∈ rest, e'.key ∉ fileKeys (appendVote store e.vote) e'.vote.token) ∧
    (∀ e' ∈ rest, (fileKeys (appendVote store e.vote) e'.vote.token).Nodup) := by
  have hkey_ne : ∀ e' ∈ rest, e'.key ≠ e.key := by
    intro e' he' heq
    simp only [dedupKeys, List.map_cons, List.nodup_cons] at hnd
    exact hnd.1 (heq ▸ List.mem_map_of_mem DedupEntry.key he')
  constructor
  · intro e' he'
    by_cases ht : e.vote.token = e'.vote.token
    · rw [← ht, fileKeys_appendVote_self]
      have h2' := h2 e' (List.mem_cons_of_mem _ he')
      rw [← ht] at h2'
      simp only [List.mem_append, List.mem_singleton]
      rintro (h | h)
      · exact h2' h
      · exact hkey_ne e' he' h
    · rw [fileKeys_appendVote_ne store e.vote _ ht]
      exact h2 e' (List.mem_cons_of_mem _ he')
  · intro e' he'
    by_cases ht : e.vote.token = e'.vote.token
    · rw [← ht, fileKeys_appendVote_self]
      rw [List.nodup_append]
      refine ⟨?_, List.nodup_singleton _, ?_⟩
      · have := h4 e' (List.mem_cons_of_mem _ he')
        rwa [← ht] at this
      · intro a ha hb
        simp only [List.mem_singleton] at hb
        subst hb
        exact h2 e (List.mem_cons_self _ _) ha
    · rw [fileKeys_appendVote_ne store e.vote _ ht]
      exact h4 e' (List.mem_cons_of_mem _ he')

theorem appendLoop_all_miss :
    ∀ (entries : List DedupEntry) (cbr : List CastVoteReply) (store : Store)
      (opened : List (String × List String)),
      (dedupKeys entries).Nodup →
      (∀ e ∈ entries, e.key ∉ fileKeys store e.vote.token) →
      (∀ e ∈ entries, (getFile store e.vote.token).corrupt = false) →
      (∀ e ∈ entries, (fileKeys store e.vote.token).Nodup) →
      (∀ p ∈ opened, ∀ e ∈ entries, e.vote.token = p.1 → e.key ∉ p.2) →
      appendLoop entries cbr store opened = .ok cbr (appendAll store entries) := by
  intro entries
  induction entries with
  | nil => intro cbr store opened _ _ _ _ _; simp [appendLoop, appendAll]
  | cons e rest ih =>
    intro cbr store opened hnd h2 h3 h4 h5
    have hconds := appendStep_conds e rest store hnd h2 h4
    have hnd' : (dedupKeys rest).Nodup := by
      simp only [dedupKeys, List.map_cons, List.nodup_cons] at hnd
      exact hnd.2
    have h3' : ∀ e' ∈ rest, (getFile (appendVote store e.vote) e'.vote.token).corrupt = false := by
      intro e' he'
      rw [corrupt_appendVote]
      exact h3 e' (List.mem_cons_of_mem _ he')
    simp only [appendLoop]
    cases hfind : List.find? (fun p => p.1 == e.vote.token) opened with
    | some p =>
      have hp_mem : p ∈ opened := List.mem_of_find?_eq_some hfind
      have hp_tok : p.1 = e.vote.token := by
        have := List.find?_some hfind
        simpa using this
      simp only [openFor, hfind]
      have hnotin : e.key ∉ p.2 :=
        h5 p hp_mem e (List.mem_cons_self _ _) hp_tok.symm
      rw [if_neg hnotin]
      rw [ih cbr (appendVote store e.vote) opened hnd' hconds.1 h3' hconds.2 ?_]
      · simp [appendAll]
      · intro p' hp' e' he' htok
        exact h5 p' hp' e' (List.mem_cons_of_mem _ he') htok
    | none =>
      simp only [openFor, hfind]
      rw [h3 e (List.mem_cons_self _ _)]
      simp only [Bool.false_eq_true, if_false]
      have hbc : buildContent (getFile store e.vote.token).entries [] =
          some (fileKeys store e.vote.token) := by
        have := buildContent_of_nodup (getFile store e.vote.token).entries []
          (by simpa [fileKeys] using h4 e (List.mem_cons_self _ _))
        simpa [fileKeys] using this
      rw [hbc]
      have hnotin : e.key ∉ fileKeys store e.vote.token :=
        h2 e (List.mem_cons_self _ _)
      simp only [if_neg hnotin]
      rw [ih cbr (appendVote store e.vote) (opened ++ [(e.vote.token, fileKeys store e.vote.token)])
        hnd' hconds.1 h3' hconds.2 ?_]
      · simp [appendAll]
      · intro p' hp' e' he' htok
        rcases List.mem_append.mp hp' with hp' | hp'
        · exact h5 p' hp' e' (List.mem_cons_of_mem _ he') htok
        · simp only [List.mem_singleton] at hp'
          subst hp'
          simp only at htok
          have hh := h2 e' (List.mem_cons_of_mem _ he')
          rw [htok] at hh
          exact hh

end Gitbe

namespace Gitbe

theorem appendLoop_all_dup :
    ∀ (entries : List DedupEntry) (cbr : List CastVoteReply) (store : Store)
      (opened : List (String × List String)),
      (∀ e ∈ entries, e.key ∈ fileKeys store e.vote.token) →
      (∀ e ∈ entries, (getFile store e.vote.token).corrupt = false) →
      (∀ e ∈ entries, (fileKeys store e.vote.token).Nodup) →
      (∀ p ∈ opened, p.2 = fileKeys store p.1) →
      appendLoop entries cbr store opened =
        .ok (setErrors cbr (entries.map DedupEntry.index)) store := by
  intro entries
  induction entries with
  | nil => intro cbr store opened _ _ _ _; simp [appendLoop, setErrors]
  | cons e rest ih =>
    intro cbr store opened h1 h3 h4 hop
    simp only [appendLoop]
    cases hfind : List.find? (fun p => p.1 == e.vote.token) opened with
    | some p =>
      have hp_mem : p ∈ opened := List.mem_of_find?_eq_some hfind
      have hp_tok : p.1 = e.vote.token := by
        have := List.find?_some hfind
        simpa using this
      simp only [openFor, hfind]
      have hin : e.key ∈ p.2 := by
        rw [hop p hp_mem, hp_tok]
        exact h1 e (List.mem_cons_self _ _)
      rw [if_pos hin]
      rw [ih (setError cbr e.index) store opened
        (fun e' he' => h1 e' (List.mem_cons_of_mem _ he'))
        (fun e' he' => h3 e' (List.mem_cons_of_mem _ he'))
        (fun e' he' => h4 e' (List.mem_cons_of_mem _ he')) hop]
      simp [setErrors]
    | none =>
      simp only [openFor, hfind]
      rw [h3 e (List.mem_cons_self _ _)]
      simp only [Bool.false_eq_true, if_false]
      have hbc : buildContent (getFile store e.vote.token).entries [] =
          some (fileKeys store e.vote.token) := by
        have := buildContent_of_nodup (getFile store e.vote.token).entries []
          (by simpa [fileKeys] using h4 e (List.mem_cons_self _ _))
        simpa [fileKeys] using this
      rw [hbc]
      have hin : e.key ∈ fileKeys store e.vote.token :=
        h1 e (List.mem_cons_self _ _)
      simp only [if_pos hin]
      rw [ih (setError cbr e.index) store
        (opened ++ [(e.vote.token, fileKeys store e.vote.token)])
        (fun e' he' => h1 e' (List.mem_cons_of_mem _ he'))
        (fun e' he' => h3 e' (List.mem_cons_of_mem _ he'))
        (fun e' he' => h4 e' (List.mem_cons_of_mem _ he')) ?_]
      · simp [setErrors]
      · intro p' hp'
        rcases List.mem_append.mp hp' with hp' | hp'
        · exact hop p' hp'
        · simp only [List.mem_singleton] at hp'
          subst hp'
          rfl

theorem appendLoop_nodup :
    ∀ (entries : List DedupEntry) (cbr : List CastVoteReply) (store : Store)
      (opened : List (String × List String)),
      (dedupKeys entries).Nodup →
      (∀ t, (fileKeys store t).Nodup) →
      (∀ p ∈ opened, ∀ k ∈ fileKeys store p.1, k ∈ p.2 ∨ k ∉ dedupKeys entries) →
      ∀ t, (fileKeys (loopStore (appendLoop entries cbr store opened)) t).Nodup := by
  intro entries
  induction entries with
  | nil => intro cbr store opened _ h2 _ t; simpa [appendLoop, loopStore] using h2 t
  | cons e rest ih =>
    intro cbr store opened hnd h2 hinv t
    have hnd' : (dedupKeys rest).Nodup := by
      simp only [dedupKeys, List.map_cons, List.nodup_cons] at hnd
      exact hnd.2
    have hkey_notin_rest : e.key ∉ dedupKeys rest := by
      simp only [dedupKeys, List.map_cons, List.nodup_cons] at hnd
      exact hnd.1
    -- invariant weakening: removing the head entry
    have hinv_weak : ∀ (ps : List (String × List String)),
        (∀ p ∈ ps, ∀ k ∈ fileKeys store p.1, k ∈ p.2 ∨ k ∉ dedupKeys (e :: rest)) →
        ∀ p ∈ ps, ∀ k ∈ fileKeys store p.1, k ∈ p.2 ∨ k ∉ dedupKeys rest := by
      intro ps hps p hp k hk
      rcases hps p hp k hk with h | h
      · exact Or.inl h
      · right
        intro hmem
        exact h (by simp only [dedupKeys, List.map_cons]; exact List.mem_cons_of_mem _ hmem)
    -- conditions after appending e when its key misses the current file
    have happend : e.key ∉ fileKeys store e.vote.token →
        (∀ t', (fileKeys (appendVote store e.vote) t').Nodup) := by
      intro hmiss t'
      by_cases ht : e.vote.token = t'
      · subst ht
        rw [fileKeys_appendVote_self]
        rw [List.nodup_append]
        refine ⟨h2 _, List.nodup_singleton _, ?_⟩
        intro a ha hb
        simp only [List.mem_singleton] at hb
        subst hb
        exact hmiss ha
      · rw [fileKeys_appendVote_ne store e.vote t' ht]
        exact h2 t'
    have happend_inv : ∀ (ps : List (String × List String)),
        (∀ p ∈ ps, ∀ k ∈ fileKeys store p.1, k ∈ p.2 ∨ k ∉ dedupKeys (e :: rest)) →
        ∀ p ∈ ps, ∀ k ∈ fileKeys (appendVote store e.vote) p.1,
          k ∈ p.2 ∨ k ∉ dedupKeys rest := by
      intro ps hps p hp k hk
      by_cases ht : e.vote.token = p.1
      · rw [← ht, fileKeys_appendVote_self] at hk
        rcases List.mem_append.mp hk with hk | hk
        · rw [ht] at hk
          rcases hps p hp k hk with h | h
          · exact Or.inl h
          · right
            intro hmem
            exact h (by simp only [dedupKeys, List.map_cons]; exact List.mem_cons_of_mem _ hmem)
        · simp only [List.mem_singleton] at hk
          subst hk
          exact Or.inr hkey_notin_rest
      · rw [fileKeys_appendVote_ne store e.vote p.1 ht] at hk
        rcases hps p hp k hk with h | h
        · exact Or.inl h
        · right
          intro hmem
          exact h (by simp only [dedupKeys, List.map_cons]; exact List.mem_cons_of_mem _ hmem)
    simp only [appendLoop]
    cases hfind : List.find? (fun p => p.1 == e.vote.token) opened with
    | some p =>
      have hp_mem : p ∈ opened := List.mem_of_find?_eq_some hfind
      have hp_tok : p.1 = e.vote.token := by
        have := List.find?_some hfind
        simpa using this
      simp only [openFor, hfind]
      by_cases hin : e.key ∈ p.2
      · rw [if_pos hin]
        exact ih (setError cbr e.index) store opened hnd' h2 (hinv_weak opened hinv) t
      · rw [if_neg hin]
        have hmiss : e.key ∉ fileKeys store e.vote.token := by
          intro hk
          rcases hinv p hp_mem e.key (hp_tok ▸ hk) with h | h
          · exact hin h
          · exact h (by simp [dedupKeys])
        exact ih cbr (appendVote store e.vote) opened hnd' (happend hmiss)
          (happend_inv opened hinv) t
    | none =>
      simp only [openFor, hfind]
      cases hcor : (getFile store e.vote.token).corrupt with
      | true =>
        simp only [if_pos rfl, loopStore]
        exact h2 t
      | false =>
        simp only [Bool.false_eq_true, if_false]
        have hbc : buildContent (getFile store e.vote.token).entries [] =
            some (fileKeys store e.vote.token) := by
          have := buildContent_of_nodup (getFile store e.vote.token).entries []
            (by simpa [fileKeys] using h2 e.vote.token)
          simpa [fileKeys] using this
        rw [hbc]
        have hnew_inv : ∀ p ∈ opened ++ [(e.vote.token, fileKeys store e.vote.token)],
            ∀ k ∈ fileKeys store p.1, k ∈ p.2 ∨ k ∉ dedupKeys (e :: rest) := by
          intro p hp k hk
          rcases List.mem_append.mp hp with hp | hp
          · exact hinv p hp k hk
          · simp only [List.mem_singleton] at hp
            subst hp
            exact Or.inl hk
        by_cases hin : e.key ∈ fileKeys store e.vote.token
        · simp only [if_pos hin]
          exact ih (setError cbr e.index) store
            (opened ++ [(e.vote.token, fileKeys store e.vote.token)]) hnd' h2
            (hinv_weak _ hnew_inv) t
        · simp only [if_neg hin]
          exact ih cbr (appendVote store e.vote)
            (opened ++ [(e.vote.token, fileKeys store e.vote.token)]) hnd'
            (happend hin) (happend_inv _ hnew_inv) t

end Gitbe

namespace Gitbe

theorem appendLoop_length :
    ∀ (entries : List DedupEntry) (cbr : List CastVoteReply) (store : Store)
      (opened : List (String × List String)) (cbr' : List CastVoteReply) (store' : Store),
      appendLoop entries cbr store opened = .ok cbr' store' →
      cbr'.length = cbr.length := by
  intro entries
  induction entries with
  | nil =>
    intro cbr store opened cbr' store' h
    simp only [appendLoop, LoopOutcome.ok.injEq] at h
    rw [← h.1]
  | cons e rest ih =>
    intro cbr store opened cbr' store' h
    simp only [appendLoop] at h
    cases hopen : openFor store opened e.vote.token with
    | panic msg => rw [hopen] at h; simp at h
    | opened content opened' =>
      rw [hopen] at h
      simp only at h
      split at h
      · rw [ih (setError cbr e.index) store opened' cbr' store' h, setError_length]
      · exact ih cbr (appendVote store e.vote) opened' cbr' store' h

theorem appendLoop_reply_cases :
    ∀ (entries : List DedupEntry) (cbr : List CastVoteReply) (store : Store)
      (opened : List (String × List String)) (cbr' : List CastVoteReply) (store' : Store),
      appendLoop entries cbr store opened = .ok cbr' store' →
      ∀ j, cbr'.getD j default = cbr.getD j default ∨
        cbr'.getD j default =
          { cbr.getD j default with error := alreadyVotedMsg } := by
  intro entries
  induction entries with
  | nil =>
    intro cbr store opened cbr' store' h j
    simp only [appendLoop, LoopOutcome.ok.injEq] at h
    rw [← h.1]
    exact Or.inl rfl
  | cons e rest ih =>
    intro cbr store opened cbr' store' h j
    simp only [appendLoop] at h
    cases hopen : openFor store opened e.vote.token with
    | panic msg => rw [hopen] at h; simp at h
    | opened content opened' =>
      rw [hopen] at h
      simp only at h
      split at h
      · rcases ih (setError cbr e.index) store opened' cbr' store' h j with hc | hc <;>
          rcases setError_getD_cases cbr e.index j with hs | hs
        · exact Or.inl (hc.trans hs)
        · exact Or.inr (hc.trans hs)
        · exact Or.inr (hc.trans (by rw [hs]))
        · right
          rw [hc, hs]
      · exact ih cbr (appendVote store e.vote) opened' cbr' store' h j

theorem appendLoop_untouched :
    ∀ (entries : List DedupEntry) (cbr : List CastVoteReply) (store : Store)
      (opened : List (String × List String)) (cbr' : List CastVoteReply) (store' : Store)
      (j : Nat),
      (∀ e ∈ entries, e.index ≠ j) →
      appendLoop entries cbr store opened = .ok cbr' store' →
      cbr'.getD j default = cbr.getD j default := by
  intro entries
  induction entries with
  | nil =>
    intro cbr store opened cbr' store' j _ h
    simp only [appendLoop, LoopOutcome.ok.injEq] at h
    rw [← h.1]
  | cons e rest ih =>
    intro cbr store opened cbr' store' j hne h
    simp only [appendLoop] at h
    cases hopen : openFor store opened e.vote.token with
    | panic msg => rw [hopen] at h; simp at h
    | opened content opened' =>
      rw [hopen] at h
      simp only at h
      split at h
      · rw [ih (setError cbr e.index) store opened' cbr' store' j
          (fun e' he' => hne e' (List.mem_cons_of_mem _ he')) h]
        exact setError_getD_ne cbr e.index j
          (fun hj => hne e (List.mem_cons_self _ _) hj.symm)
      · exact ih cbr (appendVote store e.vote) opened' cbr' store' j
          (fun e' he' => hne e' (List.mem_cons_of_mem _ he')) h

end Gitbe

namespace Gitbe

/-! Global uniqueness invariant of the ledger. -/

theorem resultStore_match_loop (X : LoopOutcome) :
    resultStore (match X with
      | .ok c st => CastVotesResult.ok c st
      | .panicked m st => CastVotesResult.panicked m st) = loopStore X := by
  cases X <;> rfl

theorem pluginCastVotes_nodup (settings : List (String × String))
    (unmarshal : String → Option FullIdentity) (validate : CastVote → Option String)
    (lockOk shutdown checkoutOk pullOk : Bool) (decoded : Option (List CastVote))
    (s : Store) (h2 : ∀ t, (fileKeys s t).Nodup) :
    ∀ t, (fileKeys (resultStore (pluginCastVotes settings unmarshal validate
      lockOk shutdown checkoutOk pullOk decoded s)) t).Nodup := by
  intro t
  unfold pluginCastVotes
  cases decoded with
  | none => exact h2 t
  | some votes =>
    cases hset : lookupSetting settings decredPluginIdentity with
    | none => exact h2 t
    | some fiJSON =>
      simp only [hset]
      cases hum : unmarshal fiJSON with
      | none => exact h2 t
      | some fi =>
        simp only [hum]
        cases lockOk with
        | false => exact h2 t
        | true =>
          cases shutdown with
          | true => exact h2 t
          | false =>
            cases checkoutOk with
            | false => exact h2 t
            | true =>
              cases pullOk with
              | false => exact h2 t
              | true =>
                simp only [Bool.not_true, Bool.false_eq_true, if_false,
                  Bool.not_false, if_true]
                rw [resultStore_match_loop]
                apply appendLoop_nodup _ _ _ _ ?_ h2 ?_ t
                · apply verifyLoop_dedup_nodup
                  simp [dedupKeys]
                · intro p hp
                  simp at hp

theorem reachable_nodup (s : Store) (h : Reachable s) :
    ∀ t, (fileKeys s t).Nodup := by
  induction h with
  | base => intro t; simp [fileKeys, getFile]
  | step settings unmarshal validate lockOk shutdown checkoutOk pullOk decoded _ ih =>
    exact pluginCastVotes_nodup settings unmarshal validate lockOk shutdown
      checkoutOk pullOk decoded _ ih

theorem length_filter_le_one_of_nodup_map {α β : Type} (l : List α) (f : α → β)
    (p : α → Bool) (h : (l.map f).Nodup)
    (hp : ∀ a b, p a = true → p b = true → f a = f b) :
    (l.filter p).length ≤ 1 := by
  induction l with
  | nil => simp
  | cons a l ih =>
    simp only [List.map_cons, List.nodup_cons] at h
    cases hpa : p a with
    | false =>
      rw [List.filter_cons_of_neg (by simp [hpa])]
      exact ih h.2
    | true =>
      rw [List.filter_cons_of_pos (by simp [hpa])]
      have hemp : l.filter p = [] := by
        rcases hfe : l.filter p with _ | ⟨b, lb⟩
        · rfl
        · exfalso
          have hb_mem : b ∈ l.filter p := by rw [hfe]; exact List.mem_cons_self _ _
          have hb_l : b ∈ l := List.mem_of_mem_filter hb_mem
          have hb_p : p b = true := List.of_mem_filter hb_mem
          refine h.1 ?_
          rw [hp a b hpa hb_p]
          exact List.mem_map_of_mem f hb_l
      rw [hemp]
      simp

end Gitbe

namespace Gitbe

/-- Claim C1: after any sequence of CastVotes calls starting from the empty
ledger tree, the vote ledger file of any proposal token T holds at most one
entry with key (T, K) for every ticket K: the intake pipeline rebuilds the
dedup index by replaying the ledger, rejects a vote whose key is already
present, and appends only on a miss. -/
theorem castVotes_ledger_unique (s : Store) (h : Reachable s) (T K : String) :
    ((getFile s T).entries.filter fun v => v.token == T && v.ticket == K).length ≤ 1 := by
  apply length_filter_le_one_of_nodup_map _ vkey
  · have := reachable_nodup s h T
    simpa [fileKeys] using this
  · intro a b ha hb
    simp only [Bool.and_eq_true, beq_iff_eq] at ha hb
    rw [vkey, vkey, ha.1, ha.2, hb.1, hb.2]

/-- Witness for C1 at a concrete reachable store. -/
theorem castVotes_ledger_unique_witness :
    Reachable ([] : Store) ∧
      ((getFile ([] : Store) "t").entries.filter
        fun v => v.token == "t" && v.ticket == "k").length ≤ 1 :=
  ⟨Reachable.base, castVotes_ledger_unique [] Reachable.base "t" "k"⟩

end Gitbe

namespace Gitbe

theorem pluginCastVotes_ok_of_appendLoop (settings : List (String × String))
    (unmarshal : String → Option FullIdentity) (validate : CastVote → Option String)
    (votes : List CastVote) (s : Store) (fiJSON : String) (fi : FullIdentity)
    (cbr' : List CastVoteReply) (s' : Store)
    (hset : lookupSetting settings decredPluginIdentity = some fiJSON)
    (hum : unmarshal fiJSON = some fi)
    (hloop : appendLoop (verifyLoop fi validate votes 0 []).2
      (verifyLoop fi validate votes 0 []).1 s [] = .ok cbr' s') :
    pluginCastVotes settings unmarshal validate true false true true (some votes) s =
      .ok cbr' s' := by
  unfold pluginCastVotes
  simp only [hset, hum, Bool.not_true, Bool.false_eq_true, if_false,
    Bool.not_false, if_true]
  rw [hloop]

/-- Claim C2: a batch in which every vote is accepted on a first call (no
intra-batch duplicate keys, every signature valid, no key already in any
ledger file, sane ledger state) is idempotent: the first call accepts every
vote, and submitting the identical batch again yields the already-voted
rejection for every vote while the ledger state is unchanged. -/
theorem castVotes_idempotent (settings : List (String × String))
    (unmarshal : String → Option FullIdentity) (validate : CastVote → Option String)
    (fiJSON : String) (fi : FullIdentity) (votes : List CastVote) (s : Store)
    (hset : lookupSetting settings decredPluginIdentity = some fiJSON)
    (hum : unmarshal fiJSON = some fi)
    (hbatch : (keysOf votes).Nodup)
    (hvalid : ∀ v ∈ votes, validate v = none)
    (hmiss : ∀ v ∈ votes, vkey v ∉ fileKeys s v.token)
    (hcorrupt : ∀ t, (getFile s t).corrupt = false)
    (hnodup : ∀ t, (fileKeys s t).Nodup) :
    ∃ cbr₁ s₁ cbr₂,
      pluginCastVotes settings unmarshal validate true false true true
        (some votes) s = .ok cbr₁ s₁ ∧
      (∀ r ∈ cbr₁, r.error = "") ∧
      pluginCastVotes settings unmarshal validate true false true true
        (some votes) s₁ = .ok cbr₂ s₁ ∧
      cbr₂.length = votes.length ∧
      (∀ j < votes.length, (cbr₂.getD j default).error = alreadyVotedMsg) := by
  have hVL : verifyLoop fi validate votes 0 [] =
      (votes.map (acceptedReply fi), mkEntries votes 0) := by
    rw [verifyLoop_all_valid fi validate votes 0 [] hvalid
      (by intro v _; simp [dedupKeys]) hbatch]
    simp
  set entries := mkEntries votes 0 with hentries
  have hkeys : dedupKeys entries = keysOf votes := mkEntries_keys votes 0
  have hmem : ∀ e ∈ entries, e.vote ∈ votes := mkEntries_mem votes 0
  have hnd_entries : (dedupKeys entries).Nodup := by rw [hkeys]; exact hbatch
  have hloop1 : appendLoop entries (votes.map (acceptedReply fi)) s [] =
      .ok (votes.map (acceptedReply fi)) (appendAll s entries) := by
    apply appendLoop_all_miss entries _ s [] hnd_entries
    · intro e he
      exact hmiss e.vote (hmem e he)
    · intro e he
      exact hcorrupt e.vote.token
    · intro e he
      exact hnodup e.vote.token
    · intro p hp
      simp at hp
  have hcall1 : pluginCastVotes settings unmarshal validate true false true true
      (some votes) s = .ok (votes.map (acceptedReply fi)) (appendAll s entries) := by
    apply pluginCastVotes_ok_of_appendLoop settings unmarshal validate votes s
      fiJSON fi _ _ hset hum
    rw [hVL]
    exact hloop1
  set s₁ := appendAll s entries with hs₁
  have hkeys_in : ∀ e ∈ entries, e.key ∈ fileKeys s₁ e.vote.token := by
    intro e he
    rw [hs₁, appendAll_fileKeys]
    apply List.mem_append_right
    apply List.mem_map_of_mem DedupEntry.key
    rw [List.mem_filter]
    exact ⟨he, by simp⟩
  have hcorrupt₁ : ∀ t, (getFile s₁ t).corrupt = false := by
    intro t
    rw [hs₁, appendAll_corrupt]
    exact hcorrupt t
  have hnodup₁ : ∀ t, (fileKeys s₁ t).Nodup := by
    intro t
    rw [hs₁, appendAll_fileKeys]
    rw [List.nodup_append]
    refine ⟨hnodup t, ?_, ?_⟩
    · exact ((List.filter_sublist entries).map DedupEntry.key).nodup hnd_entries
    · intro a ha hb
      simp only [dedupKeys, List.mem_map] at hb
      rcases hb with ⟨e, he, rfl⟩
      rw [List.mem_filter] at he
      have htok : e.vote.token = t := by simpa using he.2
      have := hmiss e.vote (hmem e he.1)
      rw [htok] at this
      exact this ha
  have hloop2 : appendLoop entries (votes.map (acceptedReply fi)) s₁ [] =
      .ok (setErrors (votes.map (acceptedReply fi)) (entries.map DedupEntry.index)) s₁ := by
    apply appendLoop_all_dup entries _ s₁ [] hkeys_in
    · intro e he
      exact hcorrupt₁ e.vote.token
    · intro e he
      exact hnodup₁ e.vote.token
    · intro p hp
      simp at hp
  have hcall2 : pluginCastVotes settings unmarshal validate true false true true
      (some votes) s₁ =
      .ok (setErrors (votes.map (acceptedReply fi)) (entries.map DedupEntry.index)) s₁ := by
    apply pluginCastVotes_ok_of_appendLoop settings unmarshal validate votes s₁
      fiJSON fi _ _ hset hum
    rw [hVL]
    exact hloop2
  refine ⟨votes.map (acceptedReply fi), s₁,
    setErrors (votes.map (acceptedReply fi)) (entries.map DedupEntry.index),
    hcall1, ?_, hcall2, ?_, ?_⟩
  · intro r hr
    rcases List.mem_map.mp hr with ⟨v, _, rfl⟩
    rfl
  · rw [setErrors_length, List.length_map]
  · intro j hj
    apply setErrors_getD_mem
    · rw [hentries, mkEntries_indices]
      rw [List.mem_range'_1]
      omega
    · rw [List.length_map]
      exact hj

end Gitbe

namespace Gitbe

/-- Witness for C2 at a concrete batch and an empty ledger. -/
theorem castVotes_idempotent_witness :
    ∃ cbr₁ s₁ cbr₂,
      pluginCastVotes [("fullidentity", "id")] (fun _ => some ⟨fun _ => [0]⟩)
        (fun _ => none) true false true true
        (some [⟨"t", "k", "1", "sig"⟩]) [] = .ok cbr₁ s₁ ∧
      (∀ r ∈ cbr₁, r.error = "") ∧
      pluginCastVotes [("fullidentity", "id")] (fun _ => some ⟨fun _ => [0]⟩)
        (fun _ => none) true false true true
        (some [⟨"t", "k", "1", "sig"⟩]) s₁ = .ok cbr₂ s₁ ∧
      cbr₂.length = [(⟨"t", "k", "1", "sig"⟩ : CastVote)].length ∧
      (∀ j < [(⟨"t", "k", "1", "sig"⟩ : CastVote)].length,
        (cbr₂.getD j default).error = alreadyVotedMsg) :=
  castVotes_idempotent [("fullidentity", "id")] (fun _ => some ⟨fun _ => [0]⟩)
    (fun _ => none) "id" ⟨fun _ => [0]⟩ [⟨"t", "k", "1", "sig"⟩] []
    rfl rfl (by decide) (fun v _ => rfl)
    (fun v hv => by simp [fileKeys, getFile])
    (fun t => rfl) (fun t => by simp [fileKeys, getFile])

end Gitbe

namespace Gitbe

theorem dupErrMsg_ne_empty (v : CastVote) : dupErrMsg v ≠ "" := by
  intro h
  have h2 := congrArg String.length h
  rw [dupErrMsg] at h2
  simp only [String.length_append] at h2
  have hlit : ("duplicate vote token " : String).length = 21 := by decide
  have hlit2 : (" ticket " : String).length = 8 := by decide
  have hnil : ("" : String).length = 0 := by decide
  rw [hlit, hlit2, hnil] at h2
  omega

theorem alreadyVotedMsg_ne_empty : alreadyVotedMsg ≠ "" := by decide

theorem pluginCastVotes_ok_inv (settings : List (String × String))
    (unmarshal : String → Option FullIdentity) (validate : CastVote → Option String)
    (lockOk shutdown checkoutOk pullOk : Bool) (votes : List CastVote) (s : Store)
    (fiJSON : String) (fi : FullIdentity) (cbr : List CastVoteReply) (s' : Store)
    (hset : lookupSetting settings decredPluginIdentity = some fiJSON)
    (hum : unmarshal fiJSON = some fi)
    (hok : pluginCastVotes settings unmarshal validate lockOk shutdown checkoutOk
      pullOk (some votes) s = .ok cbr s') :
    appendLoop (verifyLoop fi validate votes 0 []).2
      (verifyLoop fi validate votes 0 []).1 s [] = .ok cbr s' := by
  unfold pluginCastVotes at hok
  simp only [hset, hum] at hok
  cases lockOk with
  | false => exact CastVotesResult.noConfusion hok
  | true =>
    cases shutdown with
    | true => exact CastVotesResult.noConfusion hok
    | false =>
      cases checkoutOk with
      | false => exact CastVotesResult.noConfusion hok
      | true =>
        cases pullOk with
        | false => exact CastVotesResult.noConfusion hok
        | true =>
          simp only [Bool.not_true, Bool.false_eq_true, if_false,
            Bool.not_false, if_true] at hok
          cases hl : appendLoop (verifyLoop fi validate votes 0 []).2
              (verifyLoop fi validate votes 0 []).1 s [] with
          | ok c st =>
            rw [hl] at hok
            simp only [CastVotesResult.ok.injEq] at hok
            rw [hok.1, hok.2]
          | panicked m st =>
            rw [hl] at hok
            exact CastVotesResult.noConfusion hok

/-- Claim C3 amended: CastVotes returns exactly one result per input vote at
the same index; a result with an empty error carries the echoed client
signature and the counter signature; a result carrying both a non-empty
error and a non-empty counter signature is exactly an already-voted
rejection of a vote that passed signature verification, and it still
carries the echoed client signature and the counter signature. -/
theorem castVotes_reply_per_vote (settings : List (String × String))
    (unmarshal : String → Option FullIdentity) (validate : CastVote → Option String)
    (lockOk shutdown checkoutOk pullOk : Bool) (votes : List CastVote) (s : Store)
    (fiJSON : String) (fi : FullIdentity) (cbr : List CastVoteReply) (s' : Store)
    (hset : lookupSetting settings decredPluginIdentity = some fiJSON)
    (hum : unmarshal fiJSON = some fi)
    (hvmsg : ∀ v e, validate v = some e → e ≠ "")
    (hok : pluginCastVotes settings unmarshal validate lockOk shutdown checkoutOk
      pullOk (some votes) s = .ok cbr s') :
    cbr.length = votes.length ∧
    ∀ j < votes.length,
      ((cbr.getD j default).error = "" →
        (cbr.getD j default).clientSignature = (votes.getD j default).signature ∧
        (cbr.getD j default).signature = countersig fi (votes.getD j default)) ∧
      ((cbr.getD j default).error ≠ "" → (cbr.getD j default).signature ≠ "" →
        (cbr.getD j default).error = alreadyVotedMsg ∧
        (cbr.getD j default).clientSignature = (votes.getD j default).signature ∧
        (cbr.getD j default).signature = countersig fi (votes.getD j default)) := by
  have hloop := pluginCastVotes_ok_inv settings unmarshal validate lockOk shutdown
    checkoutOk pullOk votes s fiJSON fi cbr s' hset hum hok
  constructor
  · rw [appendLoop_length _ _ _ _ _ _ hloop, verifyLoop_length]
  · intro j hj
    have hcases := appendLoop_reply_cases _ _ _ _ _ _ hloop j
    have hshape := verifyLoop_reply_shape fi validate votes 0 [] j hj
    set base := (verifyLoop fi validate votes 0 []).1.getD j default with hbase
    set v := votes.getD j default with hv
    constructor
    · intro herr
      rcases hcases with hc | hc
      · rw [hc] at herr ⊢
        rcases hshape with hs | hs | hs
        · rw [hs] at herr
          exact absurd herr (dupErrMsg_ne_empty v)
        · rcases hs with ⟨e, he, hs⟩
          rw [hs] at herr
          exact absurd herr (hvmsg v e he)
        · rw [hs.2]
          exact ⟨rfl, rfl⟩
      · rw [hc] at herr
        exact absurd herr alreadyVotedMsg_ne_empty
    · intro herr hsig
      rcases hcases with hc | hc
      · rw [hc] at herr hsig ⊢
        rcases hshape with hs | hs | hs
        · rw [hs] at hsig
          exact absurd rfl hsig
        · rcases hs with ⟨e, _, hs⟩
          rw [hs] at hsig
          exact absurd rfl hsig
        · rw [hs.2] at herr
          exact absurd rfl herr
      · rw [hc] at herr hsig ⊢
        rcases hshape with hs | hs | hs
        · rw [hs] at hsig
          exact absurd rfl hsig
        · rcases hs with ⟨e, _, hs⟩
          rw [hs] at hsig
          exact absurd rfl hsig
        · rw [hs.2]
          exact ⟨rfl, rfl, rfl⟩

end Gitbe

namespace Gitbe

/-- Counterexample to claim C3 as stated: the claim says a result never
carries both an error string and a counter signature, but a vote that
passes signature verification and is then rejected at ledger level keeps
the counter signature written in the verify loop while the append loop sets
the error, so the reply carries both. -/
theorem castVotes_reply_both_error_and_signature :
    ((repliesOf (pluginCastVotes [("fullidentity", "x")]
        (fun _ => some ⟨fun _ => [1]⟩) (fun _ => none) true false true true
        (some [⟨"t", "k", "1", "s1"⟩])
        [("t", ⟨[⟨"t", "k", "1", "s0"⟩], false⟩)])).getD 0 default).error =
      alreadyVotedMsg ∧
    ((repliesOf (pluginCastVotes [("fullidentity", "x")]
        (fun _ => some ⟨fun _ => [1]⟩) (fun _ => none) true false true true
        (some [⟨"t", "k", "1", "s1"⟩])
        [("t", ⟨[⟨"t", "k", "1", "s0"⟩], false⟩)])).getD 0 default).signature ≠ "" := by
  constructor
  · decide
  · decide

/-- Witness for the amended C3 at a concrete call. -/
theorem castVotes_reply_per_vote_witness :
    ([(⟨"s1", "01", "ticket already voted on proposal"⟩ : CastVoteReply)].length =
      [(⟨"t", "k", "1", "s1"⟩ : CastVote)].length) ∧
    ∀ j < [(⟨"t", "k", "1", "s1"⟩ : CastVote)].length,
      ((([(⟨"s1", "01", "ticket already voted on proposal"⟩ : CastVoteReply)]).getD j default).error = "" →
        (([(⟨"s1", "01", "ticket already voted on proposal"⟩ : CastVoteReply)]).getD j default).clientSignature =
          (([(⟨"t", "k", "1", "s1"⟩ : CastVote)]).getD j default).signature ∧
        (([(⟨"s1", "01", "ticket already voted on proposal"⟩ : CastVoteReply)]).getD j default).signature =
          countersig ⟨fun _ => [1]⟩ (([(⟨"t", "k", "1", "s1"⟩ : CastVote)]).getD j default)) ∧
      ((([(⟨"s1", "01", "ticket already voted on proposal"⟩ : CastVoteReply)]).getD j default).error ≠ "" →
        (([(⟨"s1", "01", "ticket already voted on proposal"⟩ : CastVoteReply)]).getD j default).signature ≠ "" →
        (([(⟨"s1", "01", "ticket already voted on proposal"⟩ : CastVoteReply)]).getD j default).error =
          alreadyVotedMsg ∧
        (([(⟨"s1", "01", "ticket already voted on proposal"⟩ : CastVoteReply)]).getD j default).clientSignature =
          (([(⟨"t", "k", "1", "s1"⟩ : CastVote)]).getD j default).signature ∧
        (([(⟨"s1", "01", "ticket already voted on proposal"⟩ : CastVoteReply)]).getD j default).signature =
          countersig ⟨fun _ => [1]⟩ (([(⟨"t", "k", "1", "s1"⟩ : CastVote)]).getD j default)) :=
  castVotes_reply_per_vote [("fullidentity", "x")] (fun _ => some ⟨fun _ => [1]⟩)
    (fun _ => none) true false true true [⟨"t", "k", "1", "s1"⟩]
    [("t", ⟨[⟨"t", "k", "1", "s0"⟩], false⟩)] "x" ⟨fun _ => [1]⟩
    [⟨"s1", "01", "ticket already voted on proposal"⟩]
    [("t", ⟨[⟨"t", "k", "1", "s0"⟩], false⟩)]
    rfl rfl (fun v e h => Option.noConfusion h) (by decide)

end Gitbe

namespace Gitbe

/-- Claim C4 (code bug evidence): with a corrupt ledger file for token t1
and a batch holding votes for t1 and t2, the replay decode error makes the
whole call panic ("zzz"), aborting the process: no per-vote results are
produced at all, so the votes for t2 are not processed, contrary to the
specified per-token LedgerCorrupt error result. -/
theorem castVotes_ledger_corrupt_panics :
    pluginCastVotes [("fullidentity", "x")] (fun _ => some ⟨fun _ => []⟩)
      (fun _ => none) true false true true
      (some [⟨"t1", "k1", "1", "s1"⟩, ⟨"t2", "k2", "1", "s2"⟩])
      [("t1", ⟨[], true⟩)] =
    .panicked "zzz" [("t1", ⟨[], true⟩)] := by decide

/-- Claim C5: in verifyMessage, when the address decodes to a
pay-to-pubkey-hash address and the signature is well-formed base64, a
failure of compact public-key recovery, or of address reconstruction from
the recovered key, yields matched = false with a nil error rather than a
fatal error. -/
theorem verifyMessage_recovery_failure_not_fatal (c : ChainCrypto)
    (address message signature enc : String) (sig : List Nat)
    (haddr : c.decodeAddress address = some (.pubKeyHash enc))
    (hb64 : c.b64Decode signature = some sig)
    (hrec : c.recoverCompact sig (c.hashMessage message) = none ∨
      ∃ pk wasCompressed,
        c.recoverCompact sig (c.hashMessage message) = some (pk, wasCompressed) ∧
        c.newAddressSecpPubKey
          (if wasCompressed then c.serializeCompressed pk
           else c.serializeUncompressed pk) = none) :
    verifyMessage c address message signature = .ok false := by
  unfold verifyMessage
  simp only [haddr, hb64]
  rcases hrec with hrec | ⟨pk, wasCompressed, hrec, hnew⟩
  · simp only [hrec]
  · simp only [hrec, hnew]

/-- Witness for C5 at a concrete oracle in which recovery fails. -/
theorem verifyMessage_recovery_failure_not_fatal_witness :
    verifyMessage
      ⟨fun _ => some (.pubKeyHash "a"), fun _ => some [1], fun _ => [2],
        fun _ _ => none, fun _ => [], fun _ => [], fun _ => none⟩
      "addr" "msg" "sig" = .ok false :=
  verifyMessage_recovery_failure_not_fatal
    ⟨fun _ => some (.pubKeyHash "a"), fun _ => some [1], fun _ => [2],
      fun _ _ => none, fun _ => [], fun _ => [], fun _ => none⟩
    "addr" "msg" "sig" "a" [1] rfl rfl (Or.inl rfl)

end Gitbe

namespace Gitbe

/-- Claim C6: StartVote fails with the chain-too-young error ("invalid
height") exactly when the best block height is strictly below the ticket
maturity constant; at equality it proceeds past the check.  On that failure
the result does not depend on the block oracle, the snapshot oracle or the
metadata write, which are never consulted. -/
theorem startVote_chain_too_young (maturity : Nat)
    (blockO : Nat → Option BlockDataBasic)
    (snapshotO : String → Option (List String))
    (tokenBytes : String → Option (List Nat)) (updateOk : Bool)
    (v : Vote) (tb : List Nat) (payload : String) (bb : BlockDataBasic)
    (htok : tokenBytes v.token = some tb) :
    (pluginStartVote maturity (some bb) blockO snapshotO tokenBytes updateOk
        (some v) payload = .error "invalid height" ↔ bb.height < maturity) ∧
    (bb.height < maturity → ∀ (blockO' : Nat → Option BlockDataBasic)
      (snapshotO' : String → Option (List String)) (updateOk' : Bool),
      pluginStartVote maturity (some bb) blockO' snapshotO' tokenBytes updateOk'
        (some v) payload = .error "invalid height") := by
  constructor
  · constructor
    · intro heq
      by_contra hlt
      have hge : maturity ≤ bb.height := Nat.le_of_not_lt hlt
      unfold pluginStartVote at heq
      simp only [htok] at heq
      rw [if_neg (Nat.not_lt.mpr hge)] at heq
      cases hb : blockO (bb.height - maturity) with
      | none =>
        simp only [hb] at heq
        exact absurd (Except.error.inj heq) (by decide)
      | some sb =>
        simp only [hb] at heq
        cases hs : snapshotO sb.hash with
        | none =>
          simp only [hs] at heq
          exact absurd (Except.error.inj heq) (by decide)
        | some snap =>
          simp only [hs] at heq
          cases updateOk with
          | true =>
            simp only [if_pos rfl] at heq
            exact Except.noConfusion heq
          | false =>
            simp only [Bool.false_eq_true, if_false] at heq
            exact absurd (Except.error.inj heq) (by decide)
    · intro h
      unfold pluginStartVote
      simp only [htok]
      rw [if_pos h]
  · intro h blockO' snapshotO' updateOk'
    unfold pluginStartVote
    simp only [htok]
    rw [if_pos h]

/-- Witness for C6 at a concrete too-young chain. -/
theorem startVote_chain_too_young_witness :
    (pluginStartVote 5 (some ⟨3, "h"⟩) (fun _ => some ⟨0, "g"⟩)
        (fun _ => some ["tk"]) (fun _ => some [0]) true
        (some ⟨"tok"⟩) "payload" = .error "invalid height" ↔ (3 : Nat) < 5) ∧
    ((3 : Nat) < 5 → ∀ (blockO' : Nat → Option BlockDataBasic)
      (snapshotO' : String → Option (List String)) (updateOk' : Bool),
      pluginStartVote 5 (some ⟨3, "h"⟩) blockO' snapshotO' (fun _ => some [0])
        updateOk' (some ⟨"tok"⟩) "payload" = .error "invalid height") :=
  startVote_chain_too_young 5 (fun _ => some ⟨0, "g"⟩) (fun _ => some ["tk"])
    (fun _ => some [0]) true ⟨"tok"⟩ [0] "payload" ⟨3, "h"⟩ rfl

/-- Claim C7: a successful StartVote with best height H and maturity M
returns a session whose start block height is H - M, whose end height is
the start height plus the fixed 2016-block duration, and whose eligible
tickets are exactly the ticket pool snapshot of the block at height H - M,
assuming the block oracle returns the block with the requested height and
no uint32 wrap occurs. -/
theorem startVote_session_parameters (maturity : Nat)
    (blockO : Nat → Option BlockDataBasic)
    (snapshotO : String → Option (List String))
    (tokenBytes : String → Option (List Nat))
    (v : Vote) (tb : List Nat) (payload : String) (bb sb : BlockDataBasic)
    (snap : List String)
    (htok : tokenBytes v.token = some tb)
    (hM : maturity ≤ bb.height)
    (hblock : blockO (bb.height - maturity) = some sb)
    (hcons : sb.height = bb.height - maturity)
    (hsnap : snapshotO sb.hash = some snap)
    (hfit : bb.height - maturity + 2016 < 2 ^ 32) :
    pluginStartVote maturity (some bb) blockO snapshotO tokenBytes true
        (some v) payload =
      .ok { reply := { startBlockHeight := toString (bb.height - maturity),
                       startBlockHash := sb.hash,
                       endHeight := toString (bb.height - maturity + 2016),
                       eligibleTickets := snap },
            metadata := [.voteBits payload,
              .voteSnapshot
                { startBlockHeight := toString (bb.height - maturity),
                  startBlockHash := sb.hash,
                  endHeight := toString (bb.height - maturity + 2016),
                  eligibleTickets := snap }] } := by
  unfold pluginStartVote
  simp only [htok, hblock, hsnap]
  rw [if_neg (Nat.not_lt.mpr hM)]
  simp only [if_pos rfl, hcons, Nat.mod_eq_of_lt hfit]
  rw [if_pos trivial]

/-- Witness for C7 at a concrete consistent oracle. -/
theorem startVote_session_parameters_witness :
    pluginStartVote 2 (some ⟨5, "bh"⟩) (fun h => some ⟨h, "sb"⟩)
        (fun _ => some ["tk1", "tk2"]) (fun _ => some [0]) true
        (some ⟨"tok"⟩) "payload" =
      .ok { reply := { startBlockHeight := toString ((5 : Nat) - 2),
                       startBlockHash := "sb",
                       endHeight := toString ((5 : Nat) - 2 + 2016),
                       eligibleTickets := ["tk1", "tk2"] },
            metadata := [.voteBits "payload",
              .voteSnapshot
                { startBlockHeight := toString ((5 : Nat) - 2),
                  startBlockHash := "sb",
                  endHeight := toString ((5 : Nat) - 2 + 2016),
                  eligibleTickets := ["tk1", "tk2"] }] } :=
  startVote_session_parameters 2 (fun h => some ⟨h, "sb"⟩)
    (fun _ => some ["tk1", "tk2"]) (fun _ => some [0]) ⟨"tok"⟩ [0] "payload"
    ⟨5, "bh"⟩ ⟨5 - 2, "sb"⟩ ["tk1", "tk2"] rfl (by decide) rfl rfl rfl (by decide)

end Gitbe

namespace Gitbe

theorem getD_append_length {α : Type} [Inhabited α] :
    ∀ (l1 : List α) (x : α) (l2 : List α),
      (l1 ++ x :: l2).getD l1.length default = x := by
  intro l1
  induction l1 with
  | nil => intro x l2; rfl
  | cons a l ih => intro x l2; simpa using ih x l2

/-- Claim C8 amended: within one batch, a vote whose (token, ticket) key
matches the key of an earlier vote that passed signature verification (and
so entered the dedupVotes map) is rejected with the duplicate reply before
signature verification, never enters dedupVotes (so the append loop
performs no ledger interaction for it), and its duplicate reply survives
unchanged into the final result.  The duplicate check runs before the
signature check: the duplicate reply carries neither a counter signature
nor the echoed client signature. -/
theorem castVotes_batch_dedup_amended (settings : List (String × String))
    (unmarshal : String → Option FullIdentity) (validate : CastVote → Option String)
    (pre post : List CastVote) (v : CastVote) (s : Store) (fiJSON : String)
    (fi : FullIdentity)
    (hset : lookupSetting settings decredPluginIdentity = some fiJSON)
    (hum : unmarshal fiJSON = some fi)
    (hseen : hasKey (verifyLoop fi validate pre 0 []).2 (vkey v) = true) :
    (∀ e ∈ (verifyLoop fi validate (pre ++ v :: post) 0 []).2,
      e.index ≠ pre.length) ∧
    ((verifyLoop fi validate (pre ++ v :: post) 0 []).1.getD pre.length default =
      dupReply v) ∧
    (∀ (lockOk shutdown checkoutOk pullOk : Bool) (cbr : List CastVoteReply)
      (s' : Store),
      pluginCastVotes settings unmarshal validate lockOk shutdown checkoutOk
        pullOk (some (pre ++ v :: post)) s = .ok cbr s' →
      cbr.getD pre.length default = dupReply v) := by
  have hsplit := verifyLoop_append fi validate pre (v :: post) 0 []
  have hfirst : (verifyLoop fi validate (pre ++ v :: post) 0 []) =
      ((verifyLoop fi validate pre 0 []).1 ++ dupReply v ::
          (verifyLoop fi validate post (0 + pre.length + 1)
            (verifyLoop fi validate pre 0 []).2).1,
        (verifyLoop fi validate post (0 + pre.length + 1)
          (verifyLoop fi validate pre 0 []).2).2) := by
    rw [hsplit]
    simp only [verifyLoop, hseen, if_true]
  have hidx : ∀ e ∈ (verifyLoop fi validate (pre ++ v :: post) 0 []).2,
      e.index ≠ pre.length := by
    intro e he
    rw [hfirst] at he
    simp only at he
    rcases verifyLoop_dedup_mem fi validate post (0 + pre.length + 1) _ e he with h | h
    · rcases verifyLoop_dedup_mem fi validate pre 0 [] e h with h2 | h2
      · simp at h2
      · omega
    · omega
  have hget : (verifyLoop fi validate (pre ++ v :: post) 0 []).1.getD
      pre.length default = dupReply v := by
    rw [hfirst]
    simp only
    rw [← verifyLoop_length fi validate pre 0 []]
    exact getD_append_length _ _ _
  refine ⟨hidx, hget, ?_⟩
  intro lockOk shutdown checkoutOk pullOk cbr s' hok
  have hloop := pluginCastVotes_ok_inv settings unmarshal validate lockOk shutdown
    checkoutOk pullOk (pre ++ v :: post) s fiJSON fi cbr s' hset hum hok
  rw [appendLoop_untouched _ _ _ _ _ _ pre.length (fun e he => hidx e he) hloop]
  exact hget

end Gitbe

namespace Gitbe

/-- Counterexample to claim C8 as stated: the claim says every vote whose
(token, ticket) key was already seen earlier in the batch is rejected as a
duplicate, but the dedupVotes map only records votes that passed signature
verification.  Here the first vote with the key fails verification, so the
second vote with the same key is verified, accepted (empty error, counter
signature set) and appended to the ledger rather than rejected. -/
theorem castVotes_batch_dup_after_invalid_not_rejected :
    ((repliesOf (pluginCastVotes [("fullidentity", "x")]
        (fun _ => some ⟨fun _ => [1]⟩)
        (fun w => if w.signature == "good" then none
          else some "could not verify message")
        true false true true
        (some [⟨"t", "k", "1", "bad"⟩, ⟨"t", "k", "1", "good"⟩])
        [])).getD 1 default).error = "" ∧
    ((repliesOf (pluginCastVotes [("fullidentity", "x")]
        (fun _ => some ⟨fun _ => [1]⟩)
        (fun w => if w.signature == "good" then none
          else some "could not verify message")
        true false true true
        (some [⟨"t", "k", "1", "bad"⟩, ⟨"t", "k", "1", "good"⟩])
        [])).getD 1 default).signature = "01" ∧
    (getFile (resultStore (pluginCastVotes [("fullidentity", "x")]
        (fun _ => some ⟨fun _ => [1]⟩)
        (fun w => if w.signature == "good" then none
          else some "could not verify message")
        true false true true
        (some [⟨"t", "k", "1", "bad"⟩, ⟨"t", "k", "1", "good"⟩])
        [])) "t").entries = [⟨"t", "k", "1", "good"⟩] := by
  refine ⟨by decide, by decide, by decide⟩

/-- Witness for the amended C8 at a concrete batch in which the first vote
with the key passed verification. -/
theorem castVotes_batch_dedup_amended_witness :
    (∀ e ∈ (verifyLoop ⟨fun _ => [1]⟩ (fun _ => none)
        ([⟨"t", "k", "1", "g"⟩] ++ ⟨"t", "k", "1", "g2"⟩ :: []) 0 []).2,
      e.index ≠ [(⟨"t", "k", "1", "g"⟩ : CastVote)].length) ∧
    ((verifyLoop ⟨fun _ => [1]⟩ (fun _ => none)
        ([⟨"t", "k", "1", "g"⟩] ++ ⟨"t", "k", "1", "g2"⟩ :: []) 0 []).1.getD
          [(⟨"t", "k", "1", "g"⟩ : CastVote)].length default =
      dupReply ⟨"t", "k", "1", "g2"⟩) ∧
    (∀ (lockOk shutdown checkoutOk pullOk : Bool) (cbr : List CastVoteReply)
      (s' : Store),
      pluginCastVotes [("fullidentity", "x")] (fun _ => some ⟨fun _ => [1]⟩)
        (fun _ => none) lockOk shutdown checkoutOk pullOk
        (some ([⟨"t", "k", "1", "g"⟩] ++ ⟨"t", "k", "1", "g2"⟩ :: [])) [] =
        .ok cbr s' →
      cbr.getD [(⟨"t", "k", "1", "g"⟩ : CastVote)].length default =
        dupReply ⟨"t", "k", "1", "g2"⟩) :=
  castVotes_batch_dedup_amended [("fullidentity", "x")]
    (fun _ => some ⟨fun _ => [1]⟩) (fun _ => none)
    [⟨"t", "k", "1", "g"⟩] [] ⟨"t", "k", "1", "g2"⟩ [] "x" ⟨fun _ => [1]⟩
    rfl rfl (by decide)

end Gitbe

namespace Gitbe

/-! Lemmas for the largest-commitment-address selection. -/

theorem foldl_commitStep_eq : ∀ (l : List Vout) (acc : String × ℚ),
    l.foldl commitStep acc = (goodOuts l).foldl pairStep acc := by
  intro l
  induction l with
  | nil => intro acc; simp [goodOuts]
  | cons v l ih =>
    intro acc
    simp only [List.foldl_cons, goodOuts, List.filterMap_cons]
    cases hamt : v.scriptPubKeyDecoded.commitAmt with
    | none =>
      rw [show commitStep acc v = acc from by simp [commitStep, hamt]]
      exact ih acc
    | some amt =>
      by_cases haddr : v.scriptPubKeyDecoded.addresses = []
      · simp only [haddr, if_pos rfl]
        rw [show commitStep acc v = acc from by
          simp [commitStep, hamt, haddr, ite_self]]
        simpa [goodOuts] using ih acc
      · simp only [if_neg haddr]
        rw [show commitStep acc v =
            pairStep acc (amt, v.scriptPubKeyDecoded.addresses.headD "") from by
          simp [commitStep, hamt, haddr, pairStep]]
        simpa [goodOuts] using ih (pairStep acc (amt, v.scriptPubKeyDecoded.addresses.headD ""))

theorem le_foldl_max : ∀ (l : List ℚ) (b : ℚ), b ≤ l.foldl max b := by
  intro l
  induction l with
  | nil => intro b; exact le_refl b
  | cons x l ih =>
    intro b
    simp only [List.foldl_cons]
    exact le_trans (le_max_left b x) (ih (max b x))

theorem foldl_max_mem : ∀ (l : List ℚ) (b : ℚ),
    l.foldl max b = b ∨ l.foldl max b ∈ l := by
  intro l
  induction l with
  | nil => intro b; exact Or.inl rfl
  | cons x l ih =>
    intro b
    simp only [List.foldl_cons]
    rcases ih (max b x) with h | h
    · rcases max_choice b x with hm | hm
      · exact Or.inl (h.trans hm)
      · right
        rw [h, hm]
        exact List.mem_cons_self x l
    · exact Or.inr (List.mem_cons_of_mem x h)

theorem foldl_pairStep_snd : ∀ (l : List (ℚ × String)) (a : String) (b : ℚ),
    (l.foldl pairStep (a, b)).2 = (l.map Prod.fst).foldl max b := by
  intro l
  induction l with
  | nil => intro a b; rfl
  | cons x l ih =>
    intro a b
    simp only [List.foldl_cons, List.map_cons]
    by_cases h : b < x.1
    · rw [show pairStep (a, b) x = (x.2, x.1) from by simp [pairStep, h],
        ih x.2 x.1, max_eq_right h.le]
    · rw [show pairStep (a, b) x = (a, b) from by simp [pairStep, h],
        ih a b, max_eq_left (not_lt.mp h)]

theorem foldl_pairStep_fst : ∀ (l : List (ℚ × String)) (a : String) (b : ℚ),
    (l.foldl pairStep (a, b)).1 =
      if b < (l.map Prod.fst).foldl max b then
        ((l.find? fun x => decide (x.1 = (l.map Prod.fst).foldl max b)).map
          Prod.snd).getD a
      else a := by
  intro l
  induction l with
  | nil =>
    intro a b
    simp
  | cons x l ih =>
    intro a b
    simp only [List.foldl_cons, List.map_cons]
    by_cases hbx : b < x.1
    · rw [show pairStep (a, b) x = (x.2, x.1) from by simp [pairStep, hbx],
        ih x.2 x.1]
      simp only [max_eq_right hbx.le]
      have hbM : b < (l.map Prod.fst).foldl max x.1 :=
        lt_of_lt_of_le hbx (le_foldl_max _ _)
      rw [if_pos hbM]
      by_cases hxM : x.1 < (l.map Prod.fst).foldl max x.1
      · rw [if_pos hxM]
        rw [List.find?_cons_of_neg _ (by simp [ne_of_lt hxM])]
        cases hfind : l.find?
            (fun y => decide (y.1 = (l.map Prod.fst).foldl max x.1)) with
        | none =>
          exfalso
          rcases foldl_max_mem (l.map Prod.fst) x.1 with hm | hm
          · exact absurd hm.symm (ne_of_lt hxM)
          · rcases List.mem_map.mp hm with ⟨y, hy, hyM⟩
            have := List.find?_eq_none.mp hfind y hy
            simp [hyM] at this
        | some y => rfl
      · rw [if_neg hxM]
        have hMx : (l.map Prod.fst).foldl max x.1 = x.1 :=
          le_antisymm (not_lt.mp hxM) (le_foldl_max _ _)
        rw [List.find?_cons_of_pos _ (by simp [hMx])]
        rfl
    · rw [show pairStep (a, b) x = (a, b) from by simp [pairStep, hbx],
        ih a b]
      simp only [max_eq_left (not_lt.mp hbx)]
      by_cases hbM : b < (l.map Prod.fst).foldl max b
      · rw [if_pos hbM, if_pos hbM]
        have hx1 : ¬ (decide (x.1 = (l.map Prod.fst).foldl max b) = true) := by
          simp only [decide_eq_true_eq]
          intro hx
          exact absurd (hx ▸ hbM) (not_lt.mpr (not_lt.mp hbx))
        rw [@List.find?_cons_of_neg _
          (fun y => decide (y.1 = List.foldl max b (List.map Prod.fst l))) x l hx1]
      · rw [if_neg hbM, if_neg hbM]

end Gitbe

namespace Gitbe

/-- Claim C9 amended: largestCommitmentAddress returns the first address of
the earliest output, among outputs with a non-nil commitment amount and a
non-empty address list, that attains the maximum commitment amount over
such outputs; it fails with an error exactly when that maximum is not
positive or the selected first address is the empty string. -/
theorem largestCommitmentAddress_amended (tx : TrimmedTx) :
    largestCommitmentAddress tx =
      if 0 < bestAmount tx ∧ selectedAddr tx ≠ "" then .ok (selectedAddr tx)
      else .error ("no best commitment address found: " ++ tx.txID) := by
  have hsnd : (tx.vout.foldl commitStep ("", 0)).2 = bestAmount tx := by
    rw [foldl_commitStep_eq, foldl_pairStep_snd, bestAmount]
  have hsel : ((List.find? (fun x => decide
      (x.1 = ((goodOuts tx.vout).map Prod.fst).foldl max 0)) (goodOuts tx.vout)).map
        Prod.snd).getD "" = selectedAddr tx := by
    rw [selectedAddr, bestAmount]
    cases hf : List.find? (fun x => decide
        (x.1 = ((goodOuts tx.vout).map Prod.fst).foldl max 0)) (goodOuts tx.vout) with
    | none => rfl
    | some y => rfl
  have hM0 : (0 : ℚ) ≤ bestAmount tx := by
    rw [bestAmount]
    exact le_foldl_max _ _
  have hfst : (tx.vout.foldl commitStep ("", 0)).1 =
      if 0 < bestAmount tx then selectedAddr tx else "" := by
    rw [foldl_commitStep_eq, foldl_pairStep_fst]
    by_cases h0 : 0 < bestAmount tx
    · rw [if_pos (show (0 : ℚ) < ((goodOuts tx.vout).map Prod.fst).foldl max 0 from by
        rw [← bestAmount]; exact h0), if_pos h0]
      exact hsel
    · rw [if_neg (show ¬ (0 : ℚ) < ((goodOuts tx.vout).map Prod.fst).foldl max 0 from by
        rw [← bestAmount]; exact h0), if_neg h0]
  rw [largestCommitmentAddress]
  simp only [hsnd, hfst]
  by_cases h0 : 0 < bestAmount tx
  · simp only [if_pos h0]
    by_cases hsel0 : selectedAddr tx = ""
    · rw [if_pos (Or.inl hsel0), if_neg ?_]
      rintro ⟨_, hne⟩
      exact hne hsel0
    · rw [if_neg ?_, if_pos ⟨h0, hsel0⟩]
      rintro (h | h)
      · exact hsel0 h
      · exact (ne_of_gt h0) h
  · have hMeq : bestAmount tx = 0 := le_antisymm (not_lt.mp h0) hM0
    simp only [if_neg h0]
    rw [if_pos (Or.inl trivial), if_neg ?_]
    rintro ⟨hlt, _⟩
    exact h0 hlt

/-- Counterexample to claim C9 as stated: on a transaction whose outputs
are (amount 2, address a), (amount 5, no addresses), (amount 3, address b),
the code returns b, while the output the claim designates (the earliest
output whose commitment amount is strictly greater than the amount of every
earlier output, read literally) has first address a, and the reading in
which the maximum amount wins with earliest tie-break designates the
address-less amount-5 output, so no address at all. -/
theorem largestCommitmentAddress_not_earliest_dominant :
    largestCommitmentAddress
        ⟨"tx1", [⟨⟨some 2, ["a"]⟩⟩, ⟨⟨some 5, []⟩⟩, ⟨⟨some 3, ["b"]⟩⟩]⟩ = .ok "b" ∧
    claimedCommitmentAddress
        ⟨"tx1", [⟨⟨some 2, ["a"]⟩⟩, ⟨⟨some 5, []⟩⟩, ⟨⟨some 3, ["b"]⟩⟩]⟩ = some "a" ∧
    claimedMaxAddress
        ⟨"tx1", [⟨⟨some 2, ["a"]⟩⟩, ⟨⟨some 5, []⟩⟩, ⟨⟨some 3, ["b"]⟩⟩]⟩ = none ∧
    ("a" : String) ≠ "b" := by
  refine ⟨by rfl, by decide, by decide, by decide⟩

end Gitbe

namespace Gitbe

/-- Claim C10: CastVotes fails the whole call, with the ledger state
untouched and independently of the validator, the lock, the shutdown flag
and the git steps, whenever the fullidentity setting is absent or its
payload does not unmarshal; when it is present and valid, the counter
signature of every accepted vote is produced with that identity. -/
theorem castVotes_requires_full_identity (settings : List (String × String))
    (unmarshal : String → Option FullIdentity) (validate : CastVote → Option String)
    (lockOk shutdown checkoutOk pullOk : Bool) (votes : List CastVote) (s : Store) :
    (lookupSetting settings decredPluginIdentity = none →
      pluginCastVotes settings unmarshal validate lockOk shutdown checkoutOk
        pullOk (some votes) s = .err "full identity not set" s) ∧
    (∀ fiJSON, lookupSetting settings decredPluginIdentity = some fiJSON →
      unmarshal fiJSON = none →
      pluginCastVotes settings unmarshal validate lockOk shutdown checkoutOk
        pullOk (some votes) s = .err "UnmarshalFullIdentity" s) ∧
    (∀ (fiJSON : String) (fi : FullIdentity) (cbr : List CastVoteReply) (s' : Store),
      lookupSetting settings decredPluginIdentity = some fiJSON →
      unmarshal fiJSON = some fi →
      (∀ v e, validate v = some e → e ≠ "") →
      pluginCastVotes settings unmarshal validate lockOk shutdown checkoutOk
        pullOk (some votes) s = .ok cbr s' →
      ∀ j < votes.length, (cbr.getD j default).error = "" →
        (cbr.getD j default).signature = countersig fi (votes.getD j default)) := by
  refine ⟨?_, ?_, ?_⟩
  · intro h
    unfold pluginCastVotes
    simp only [h]
  · intro fiJSON hset hum
    unfold pluginCastVotes
    simp only [hset, hum]
  · intro fiJSON fi cbr s' hset hum hvmsg hok j hj herr
    have := castVotes_reply_per_vote settings unmarshal validate lockOk shutdown
      checkoutOk pullOk votes s fiJSON fi cbr s' hset hum hvmsg hok
    exact ((this.2 j hj).1 herr).2

/-- Witness for C10: a settings map without the fullidentity key makes the
call fail with the full-identity error and an unchanged store. -/
theorem castVotes_requires_full_identity_witness :
    pluginCastVotes [("x", "y")] (fun _ => some ⟨fun _ => [0]⟩) (fun _ => none)
      true false true true (some [⟨"t", "k", "1", "s"⟩]) [] =
      .err "full identity not set" [] :=
  (castVotes_requires_full_identity [("x", "y")] (fun _ => some ⟨fun _ => [0]⟩)
    (fun _ => none) true false true true [⟨"t", "k", "1", "s"⟩] []).1 rfl

end Gitbe
